import Mathlib

/-!
Shallow embedding of the core of the `detour` DNS proxy (Rust), for checking
its natural-language specification.  Byte buffers are modelled as `List Nat`
(each element one octet), monotonic instants and durations as natural numbers
of seconds, and the hash maps / hash sets of the source as association lists
respectively membership lists keyed by exact equality.  Rust strings are kept
as their UTF-8 byte sequences, so Rust `String` equality coincides with list
equality.
-/

/-- Big-endian 16-bit value from two bytes (`u16::from_be_bytes`). -/
def be16 (hi lo : Nat) : Nat := hi * 256 + lo

/-- Big-endian 32-bit value from four bytes (`u32::from_be_bytes`). -/
def be32 (a b c d : Nat) : Nat := ((a * 256 + b) * 256 + c) * 256 + d

/-- Largest `u32` value, the sentinel used by `parse_min_ttl`. -/
def u32max : Nat := 4294967295

/-- One UTF-8 sequence starting with lead byte `a` followed by `rest`:
returns the bytes after the sequence when the lead byte's class and its
continuation bytes are well-formed, `none` otherwise (RFC 3629 table: no
overlong forms, no surrogates, maximum U+10FFFF — exactly the sequences
Rust's `std::str::from_utf8` accepts). -/
def utf8Step (a : Nat) (rest : List Nat) : Option (List Nat) :=
  if a ≤ 0x7F then some rest
  else if 0xC2 ≤ a ∧ a ≤ 0xDF then
    match rest with
    | b :: r => if 0x80 ≤ b ∧ b ≤ 0xBF then some r else none
    | [] => none
  else if a = 0xE0 then
    match rest with
    | b :: c :: r => if (0xA0 ≤ b ∧ b ≤ 0xBF) ∧ (0x80 ≤ c ∧ c ≤ 0xBF) then some r else none
    | _ => none
  else if (0xE1 ≤ a ∧ a ≤ 0xEC) ∨ (0xEE ≤ a ∧ a ≤ 0xEF) then
    match rest with
    | b :: c :: r => if (0x80 ≤ b ∧ b ≤ 0xBF) ∧ (0x80 ≤ c ∧ c ≤ 0xBF) then some r else none
    | _ => none
  else if a = 0xED then
    match rest with
    | b :: c :: r => if (0x80 ≤ b ∧ b ≤ 0x9F) ∧ (0x80 ≤ c ∧ c ≤ 0xBF) then some r else none
    | _ => none
  else if a = 0xF0 then
    match rest with
    | b :: c :: d :: r =>
      if (0x90 ≤ b ∧ b ≤ 0xBF) ∧ (0x80 ≤ c ∧ c ≤ 0xBF) ∧ (0x80 ≤ d ∧ d ≤ 0xBF) then some r
      else none
    | _ => none
  else if 0xF1 ≤ a ∧ a ≤ 0xF3 then
    match rest with
    | b :: c :: d :: r =>
      if (0x80 ≤ b ∧ b ≤ 0xBF) ∧ (0x80 ≤ c ∧ c ≤ 0xBF) ∧ (0x80 ≤ d ∧ d ≤ 0xBF) then some r
      else none
    | _ => none
  else if a = 0xF4 then
    match rest with
    | b :: c :: d :: r =>
      if (0x80 ≤ b ∧ b ≤ 0x8F) ∧ (0x80 ≤ c ∧ c ≤ 0xBF) ∧ (0x80 ≤ d ∧ d ≤ 0xBF) then some r
      else none
    | _ => none
  else none

theorem utf8Step_length (a : Nat) (rest r : List Nat) (h : utf8Step a rest = some r) :
    r.length ≤ rest.length := by
  unfold utf8Step at h
  repeat' split at h
  all_goals cases h
  all_goals try simp only [List.length_cons]
  all_goals omega

/-- `true` on exactly the well-formed UTF-8 byte sequences (what Rust's
`std::str::from_utf8` accepts): repeatedly consume one sequence via
`utf8Step`. -/
def utf8Valid : List Nat → Bool
  | [] => true
  | a :: rest =>
    match h : utf8Step a rest with
    | some r => utf8Valid r
    | none => false
termination_by l => l.length
decreasing_by
  have := utf8Step_length a rest r h
  simp
  omega

/-- ASCII lowercasing of one byte.  Rust's `str::to_lowercase` (used on parsed
domains) and `str::to_ascii_lowercase` (used on blocklist lines) agree with
this bytewise map on ASCII input, which is the fidelity domain of the model. -/
def lowerByte (b : Nat) : Nat := if 65 ≤ b ∧ b ≤ 90 then b + 32 else b

/-- ASCII lowercasing of a byte string. -/
def lowerBytes (l : List Nat) : List Nat := l.map lowerByte

/-- A parsed DNS query (`DnsQuery` in `dns.rs`).  The `domain` field is the
UTF-8 byte string of the Rust `String`. -/
structure DnsQuery where
  id : Nat
  domain : List Nat
  qtype : Nat
  qclass : Nat
deriving Repr, DecidableEq

/-- Label-reading loop of `DnsQuery::parse` (`dns.rs` lines 29-42), acting on
the bytes that follow the 12-byte header.  Returns the labels read and the
bytes remaining after the zero terminator; when the buffer ends before a
terminator the loop exits with no remaining bytes (the source's
`while pos < data.len()` condition).  Fails (`none`) when a label extends past
the buffer or a label is not valid UTF-8. -/
def parseLoop : List Nat → List (List Nat) → Option (List (List Nat) × List Nat)
  | [], acc => some (acc.reverse, [])
  | 0 :: rest, acc => some (acc.reverse, rest)
  | n :: rest, acc =>
    if n ≤ rest.length then
      (if utf8Valid (rest.take n) then parseLoop (rest.drop n) (rest.take n :: acc) else none)
    else none
termination_by l _ => l.length
decreasing_by simp [List.length_drop]; omega

/-- `DnsQuery::parse` (`dns.rs` lines 18-61): reject buffers shorter than 13
bytes, read the transaction id, walk the labels, reject when no labels appear
or fewer than four bytes remain, and build the lowercased dotted domain. -/
def DnsQuery.parse (data : List Nat) : Option DnsQuery :=
  if data.length < 13 then none
  else
    match parseLoop (data.drop 12) [] with
    | none => none
    | some (labels, rest) =>
      if labels = [] then none
      else
        match rest with
        | t1 :: t2 :: c1 :: c2 :: _ =>
          some ⟨be16 (data.getD 0 0) (data.getD 1 0),
                lowerBytes (List.intercalate [46] labels), be16 t1 t2, be16 c1 c2⟩
        | _ => none

/-- Label-reading loop of `extract_domain` (`filter/mod.rs` lines 43-61).
Unlike `parseLoop` it fails when the buffer ends before the zero terminator
(the source returns `None` when `pos >= query.len()`). -/
def extractLoop : List Nat → List (List Nat) → Option (List (List Nat))
  | [], _ => none
  | 0 :: _, acc => some acc.reverse
  | n :: rest, acc =>
    if n ≤ rest.length then
      (if utf8Valid (rest.take n) then extractLoop (rest.drop n) (rest.take n :: acc) else none)
    else none
termination_by l _ => l.length
decreasing_by simp [List.length_drop]; omega

/-- `extract_domain` (`filter/mod.rs` lines 34-68): the dotted domain exactly
as written in the packet.  Note the source does not lowercase here. -/
def extract_domain (query : List Nat) : Option (List Nat) :=
  if query.length < 13 then none
  else
    match extractLoop (query.drop 12) [] with
    | none => none
    | some labels => if labels = [] then none else some (List.intercalate [46] labels)

/-- Modelled from the claim's wording: the label walk underlying the four
listed parse-failure conditions, which mentions no UTF-8 validation — the
same walk as `parseLoop` but accepting every label body.  Used only to state
and compare the claimed failure conditions against `DnsQuery.parse`. -/
def rawLoop : List Nat → List (List Nat) → Option (List (List Nat) × List Nat)
  | [], acc => some (acc.reverse, [])
  | 0 :: rest, acc => some (acc.reverse, rest)
  | n :: rest, acc =>
    if n ≤ rest.length then rawLoop (rest.drop n) (rest.take n :: acc)
    else none
termination_by l _ => l.length
decreasing_by simp [List.length_drop]; omega

/-- Modelled from the claim's wording: the four conditions C1 lists for an
`Invalid` result — buffer shorter than 13 bytes, a label extending past the
buffer, no labels, or fewer than four bytes remaining for qtype/qclass. -/
def specInvalidConds (data : List Nat) : Prop :=
  data.length < 13 ∨
  (match rawLoop (data.drop 12) [] with
   | none => True
   | some (ls, rest) => ls = [] ∨ rest.length < 4)

/-- The failure condition C1 omits: some label of the question is not valid
UTF-8 (`std::str::from_utf8` fails inside `DnsQuery::parse`). -/
def hasBadUtf8Label (data : List Nat) : Prop :=
  match rawLoop (data.drop 12) [] with
  | some (ls, _) => ∃ lab ∈ ls, utf8Valid lab = false
  | none => False

/-- Suffix of a byte string after its first `'.'` (byte 46); `none` when no
dot occurs.  This is `current.find('.')` followed by `&current[pos + 1..]` in
`Blocklist::is_blocked`. -/
def afterDot : List Nat → Option (List Nat)
  | [] => none
  | a :: rest => if a = 46 then some rest else afterDot rest

theorem afterDot_length (d r : List Nat) (h : afterDot d = some r) : r.length < d.length := by
  induction d with
  | nil => simp [afterDot] at h
  | cons a rest ih =>
    by_cases ha : a = 46
    · simp [afterDot, ha] at h
      simp [← h]
    · simp [afterDot, ha] at h
      have := ih h
      simp
      omega

/-- `Blocklist::is_blocked` (`filter/blocklist.rs` lines 50-61): probe the
set with the domain, on a miss advance past the leftmost dot and retry,
answer `false` when no dot remains.  The set is modelled as a membership
list. -/
def is_blocked (bl : List (List Nat)) (d : List Nat) : Bool :=
  if d ∈ bl then true
  else
    match h : afterDot d with
    | some r => is_blocked bl r
    | none => false
termination_by d.length
decreasing_by exact afterDot_length d _ h

/-- ASCII whitespace test; `str::trim` is modelled over ASCII whitespace,
which is exact for the ASCII blocklist lines the claims concern. -/
def isAsciiWs (b : Nat) : Bool := if b = 9 ∨ b = 10 ∨ b = 11 ∨ b = 12 ∨ b = 13 ∨ b = 32 then true else false

/-- `str::trim` on a byte string (ASCII whitespace). -/
def trimBytes (l : List Nat) : List Nat :=
  ((l.dropWhile isAsciiWs).reverse.dropWhile isAsciiWs).reverse

/-- `Blocklist::from_lists` (`filter/blocklist.rs` lines 33-46) acting on the
already line-split inputs: trim each line, drop empty lines and lines starting
with `'#'` (35) or `'!'` (33), keep the ASCII-lowercased survivors. -/
def from_lines (lines : List (List Nat)) : List (List Nat) :=
  lines.filterMap fun line =>
    let t := trimBytes line
    if t = [] ∨ t.headD 0 = 35 ∨ t.headD 0 = 33 then none
    else some (lowerBytes t)

/-- Position just after the qname-skipping loop of `create_blocked_response`
(`filter/mod.rs` lines 94-97): starting from `pos`, step `pos += 1 + query[pos]`
while `pos < query.len() && query[pos] != 0`. -/
def qnameEnd (query : List Nat) (pos : Nat) : Nat :=
  if h : pos < query.length then
    (if query.getD pos 0 = 0 then pos else qnameEnd query (pos + 1 + query.getD pos 0))
  else pos
termination_by query.length - pos
decreasing_by omega

/-- `create_blocked_response` (`filter/mod.rs` lines 73-120): header with the
query's transaction id, flags `0x8180`, QDCOUNT 1, ANCOUNT 1, NSCOUNT 0,
ARCOUNT 0, the question section copied verbatim from the query when it lies
within the buffer, and a single A-record answer: compression pointer
`0xC0 0x0C`, type 1, class 1, TTL 300, RDLENGTH 4, RDATA `0.0.0.0`.
Rust indexes `query[0..2]` (panicking below two bytes, unreachable behind a
successful domain extraction); the model takes the prefix. -/
def create_blocked_response (query : List Nat) : List Nat :=
  let e := qnameEnd query 12
  let qend := e + 5
  let question := if qend ≤ query.length then (query.drop 12).take (qend - 12) else []
  query.take 2
    ++ [0x81, 0x80, 0x00, 0x01, 0x00, 0x01, 0x00, 0x00, 0x00, 0x00]
    ++ question
    ++ [0xC0, 0x0C, 0x00, 0x01, 0x00, 0x01, 0x00, 0x00, 0x01, 0x2C, 0x00, 0x04,
        0x00, 0x00, 0x00, 0x00]

/-- `filter_query` (`filter/mod.rs` lines 21-29): extract the domain from the
raw packet, and when the blocklist blocks it return the blocked response. -/
def filter_query (bl : List (List Nat)) (query : List Nat) : Option (List Nat) :=
  match extract_domain query with
  | none => none
  | some d => if is_blocked bl d then some (create_blocked_response query) else none

/-- Name-skipping loop shared by the question walk (`dns.rs` lines 191-203)
and the RR walk (`dns.rs` lines 213-224) of `parse_min_ttl`: a zero byte ends
the name after one position, a byte `≥ 0xC0` is a compression pointer of two
bytes, any other byte is a label length. -/
def skipName (resp : List Nat) (pos : Nat) : Nat :=
  if h : pos < resp.length then
    let b := resp.getD pos 0
    if b = 0 then pos + 1
    else if 0xC0 ≤ b then pos + 2
    else skipName resp (pos + 1 + b)
  else pos
termination_by resp.length - pos
decreasing_by omega

/-- Resource-record loop of `parse_min_ttl` (`dns.rs` lines 207-240): for each
of the counted records, stop when the position has run past the buffer, skip
the name, stop when fewer than ten bytes remain for the fixed RR fields, fold
the 32-bit TTL into the running minimum and advance past the RDATA. -/
def rrLoop (resp : List Nat) : Nat → Nat → Nat → Nat
  | 0, _, m => m
  | n + 1, pos, m =>
    if resp.length ≤ pos then m
    else
      let pos2 := skipName resp pos
      if resp.length < pos2 + 10 then m
      else
        let ttl := be32 (resp.getD (pos2 + 4) 0) (resp.getD (pos2 + 5) 0)
          (resp.getD (pos2 + 6) 0) (resp.getD (pos2 + 7) 0)
        let rdlength := be16 (resp.getD (pos2 + 8) 0) (resp.getD (pos2 + 9) 0)
        rrLoop resp n (pos2 + 10 + rdlength) (min m ttl)

/-- `DnsResponse::parse_min_ttl` (`dns.rs` lines 174-247): with a buffer of at
least twelve bytes and a positive total record count, skip the question name
plus four bytes, scan the records folding the minimum TTL from the sentinel
`u32::MAX`, and return the default when the sentinel survives.  Durations are
modelled in whole seconds, which is exact (`Duration::from_secs`). -/
def parse_min_ttl (resp : List Nat) (dflt : Nat) : Nat :=
  if resp.length < 12 then dflt
  else
    let total := be16 (resp.getD 6 0) (resp.getD 7 0) + be16 (resp.getD 8 0) (resp.getD 9 0)
      + be16 (resp.getD 10 0) (resp.getD 11 0)
    if total = 0 then dflt
    else
      let pos := skipName resp 12 + 4
      let m := rrLoop resp total pos u32max
      if m = u32max then dflt else m

/-- TTLs actually extracted by the RR walk of `parse_min_ttl`, in scan order:
the same recursion as `rrLoop`, collecting instead of folding. -/
def rrCollect (resp : List Nat) : Nat → Nat → List Nat
  | 0, _ => []
  | n + 1, pos =>
    if resp.length ≤ pos then []
    else
      let pos2 := skipName resp pos
      if resp.length < pos2 + 10 then []
      else
        let ttl := be32 (resp.getD (pos2 + 4) 0) (resp.getD (pos2 + 5) 0)
          (resp.getD (pos2 + 6) 0) (resp.getD (pos2 + 7) 0)
        let rdlength := be16 (resp.getD (pos2 + 8) 0) (resp.getD (pos2 + 9) 0)
        ttl :: rrCollect resp n (pos2 + 10 + rdlength)

/-- TTLs extracted across the whole `parse_min_ttl` scan. -/
def collect_ttls (resp : List Nat) : List Nat :=
  if resp.length < 12 then []
  else
    let total := be16 (resp.getD 6 0) (resp.getD 7 0) + be16 (resp.getD 8 0) (resp.getD 9 0)
      + be16 (resp.getD 10 0) (resp.getD 11 0)
    if total = 0 then []
    else rrCollect resp total (skipName resp 12 + 4)

/-- `DnsQuery::response_from_cache` (`dns.rs` lines 69-77): refuse buffers of
fewer than two bytes, otherwise overwrite bytes 0-1 with the query id in
big-endian (`(id >> 8) as u8` and `(id & 0xFF) as u8`). -/
def DnsQuery.response_from_cache (q : DnsQuery) (cached : List Nat) : Option (List Nat) :=
  if cached.length < 2 then none
  else some (q.id / 256 % 256 :: q.id % 256 :: cached.drop 2)

/-- A cache entry (`cache.rs` lines 9-12). -/
structure CacheEntry where
  response : List Nat
  expires_at : Nat
deriving Repr, DecidableEq

/-- `DnsCache` (`cache.rs` lines 17-21).  The source's nested hash map
`qtype → domain → entry` is modelled as an association list keyed by the pair
`(qtype, domain)`; the nested lookup of the source is exactly a lookup of the
composite key, and insertion keeps keys unique. -/
structure DnsCache where
  entries : List ((Nat × List Nat) × CacheEntry)
  min_ttl : Nat
  max_ttl : Nat
deriving Repr, DecidableEq

/-- `DnsCache::new` (`cache.rs` lines 24-30): empty, `min_ttl` 60 s,
`max_ttl` 86400 s. -/
def DnsCache.new : DnsCache := ⟨[], 60, 86400⟩

/-- Lookup of a key in the modelled nested map. -/
def cacheFind (c : DnsCache) (k : Nat × List Nat) : Option CacheEntry :=
  (c.entries.find? fun kv => kv.1 = k).map (·.2)

/-- `DnsCache::get` (`cache.rs` lines 33-61): on a hit that has not expired,
answer the stored bytes through `response_from_cache`; on an expired hit
remove the entry and answer `none`; on a miss answer `none`.  The current
instant is the explicit `now` argument; the cache after the call is returned
alongside the result. -/
def DnsCache.get (c : DnsCache) (now : Nat) (q : DnsQuery) : Option (List Nat) × DnsCache :=
  let k := (q.qtype, q.domain)
  match cacheFind c k with
  | some e =>
    if now < e.expires_at then (q.response_from_cache e.response, c)
    else (none, { c with entries := c.entries.filter fun kv => ¬ kv.1 = k })
  | none => (none, c)

/-- `DnsCache::put` (`cache.rs` lines 64-80): derive the TTL by the
minimum-TTL scan with `min_ttl` as the default, clamp it into
`[min_ttl, max_ttl]` (`Ord::clamp`), and insert the bytes with expiry
`now + ttl`, replacing any entry under the same key. -/
def DnsCache.put (c : DnsCache) (now : Nat) (q : DnsQuery) (response : List Nat) : DnsCache :=
  let ttl := parse_min_ttl response c.min_ttl
  let ttl := min (max ttl c.min_ttl) c.max_ttl
  let k := (q.qtype, q.domain)
  { c with
    entries := (k, ⟨response, now + ttl⟩) :: c.entries.filter fun kv => ¬ kv.1 = k }

/-- `QueryAction` (`resolver.rs` lines 16-25). -/
inductive QueryAction where
  | Invalid : QueryAction
  | Blocked (response : List Nat) (domain : List Nat) : QueryAction
  | Cached (response : List Nat) (domain : List Nat) : QueryAction
  | Forward (domain : List Nat) : QueryAction
deriving Repr, DecidableEq

/-- `Resolver::process_query` (`resolver.rs` lines 51-76): parse, else
`Invalid`; pass the raw packet through `filter_query` (the `filter/mod.rs`
function, which takes the packet bytes), else consult the cache, else
`Forward`.  The resolver's cache after the call is returned alongside the
action, and the instant `now` stands for `Instant::now()` inside
`DnsCache::get`. -/
def process_query (bl : List (List Nat)) (c : DnsCache) (now : Nat) (data : List Nat) :
    QueryAction × DnsCache :=
  match DnsQuery.parse data with
  | none => (.Invalid, c)
  | some q =>
    match filter_query bl data with
    | some resp => (.Blocked resp q.domain, c)
    | none =>
      match c.get now q with
      | (some resp, c2) => (.Cached resp q.domain, c2)
      | (none, c2) => (.Forward q.domain, c2)

/-- `Resolver::process_response` (`resolver.rs` lines 82-86): parse the
response as a query to recover the question; when well-formed, store the
bytes in the cache, otherwise leave the cache unchanged. -/
def process_response (c : DnsCache) (now : Nat) (resp : List Nat) : DnsCache :=
  match DnsQuery.parse resp with
  | none => c
  | some q => c.put now q resp

/-- `Stats` (`stats.rs` lines 6-13), sequentially: the four counters plus the
cumulative response time.  The callers convert a floating-point millisecond
value to integer microseconds (`(response_time_ms * 1000.0) as u64`); the
model receives that already-converted integer, so no floating-point
arithmetic enters the counters. -/
structure Stats where
  requests : Nat
  forwarded : Nat
  cached : Nat
  blocked : Nat
  total_response_time_us : Nat
deriving Repr, DecidableEq

/-- `Stats::new` (`stats.rs` lines 16-24). -/
def Stats.new : Stats := ⟨0, 0, 0, 0, 0⟩

/-- `Stats::record_forwarded` (`stats.rs` lines 26-31). -/
def Stats.record_forwarded (s : Stats) (us : Nat) : Stats :=
  { s with requests := s.requests + 1, forwarded := s.forwarded + 1,
           total_response_time_us := s.total_response_time_us + us }

/-- `Stats::record_cached` (`stats.rs` lines 33-38). -/
def Stats.record_cached (s : Stats) (us : Nat) : Stats :=
  { s with requests := s.requests + 1, cached := s.cached + 1,
           total_response_time_us := s.total_response_time_us + us }

/-- `Stats::record_blocked` (`stats.rs` lines 40-45). -/
def Stats.record_blocked (s : Stats) (us : Nat) : Stats :=
  { s with requests := s.requests + 1, blocked := s.blocked + 1,
           total_response_time_us := s.total_response_time_us + us }

/-- `StatsSnapshot` (`stats.rs` lines 76-82); the average is modelled as an
exact rational in place of the `f64` quotient, which agrees with the source
on the claim-relevant case `requests = 0` where the source yields `0.0`. -/
structure StatsSnapshot where
  requests : Nat
  forwarded : Nat
  cached : Nat
  blocked : Nat
  avg_response_ms : ℚ
deriving DecidableEq

/-- `Stats::snapshot_and_reset` (`stats.rs` lines 47-67): read out the five
counters, compute `total_us / requests / 1000` (0 when there were no
requests), and zero every counter. -/
def Stats.snapshot_and_reset (s : Stats) : StatsSnapshot × Stats :=
  (⟨s.requests, s.forwarded, s.cached, s.blocked,
    if 0 < s.requests then ((s.total_response_time_us : ℚ) / s.requests) / 1000 else 0⟩,
   Stats.new)

/-- One call sequence against a `Stats` block: the three record operations
(with their microsecond argument) and `snapshot_and_reset`, whose returned
snapshot is discarded here. -/
inductive StatsOp where
  | forwarded (us : Nat) : StatsOp
  | cached (us : Nat) : StatsOp
  | blocked (us : Nat) : StatsOp
  | snapshot : StatsOp
deriving Repr, DecidableEq

/-- Run a sequence of stats operations. -/
def statsRun (s : Stats) : List StatsOp → Stats
  | [] => s
  | .forwarded us :: ops => statsRun (s.record_forwarded us) ops
  | .cached us :: ops => statsRun (s.record_cached us) ops
  | .blocked us :: ops => statsRun (s.record_blocked us) ops
  | .snapshot :: ops => statsRun (s.snapshot_and_reset).2 ops

/-- Wire encoding of one uncompressed question (length-prefixed labels, zero
terminator, big-endian qtype and qclass), as in spec section 3 and the S1
scenario bytes. -/
def encodeQuestion (labels : List (List Nat)) (qt qc : Nat) : List Nat :=
  (labels.map fun l => l.length :: l).flatten ++ 0 :: [qt / 256, qt % 256, qc / 256, qc % 256]

/-- A pending-table entry of the UDP loop (`transport/udp.rs` lines 47-52).
Client addresses are opaque and modelled as naturals. -/
structure PendingQuery where
  client_addr : Nat
  domain : List Nat
  start_time : Nat
  upstream_start : Nat
deriving Repr, DecidableEq

/-- State carried across iterations of the UDP loop (`transport/udp.rs`
`run`): the pending table (`HashMap<u16, PendingQuery>` as an association
list with unique keys) and the resolver's cache.  Counter updates and logging
are orthogonal to the claims on this loop and are elided. -/
structure UdpState where
  pending : List (Nat × PendingQuery)
  cache : DnsCache
deriving Repr, DecidableEq

/-- One readiness event of the UDP select loop: a client datagram (with its
source address) or an upstream datagram, each carrying the receive instant. -/
inductive UdpEvent where
  | clientMsg (data : List Nat) (src : Nat) (now : Nat) : UdpEvent
  | upstreamMsg (data : List Nat) (now : Nat) : UdpEvent
deriving Repr, DecidableEq

/-- A datagram sent by the loop: to a client address, or the fan-out of the
query to every upstream socket. -/
inductive UdpOutput where
  | sendClient (addr : Nat) (data : List Nat) : UdpOutput
  | sendUpstreams (data : List Nat) : UdpOutput
deriving Repr, DecidableEq

/-- Pending-table lookup (`HashMap::get`-style, on the id key). -/
def pendingFind (p : List (Nat × PendingQuery)) (id : Nat) : Option PendingQuery :=
  (p.find? fun kv => kv.1 = id).map (·.2)

/-- One iteration of the UDP loop body (`transport/udp.rs` lines 67-153).
A client datagram shorter than 12 bytes is dropped; otherwise the resolver
decides: `Invalid` drops, `Blocked`/`Cached` answer the client directly,
`Forward` inserts the pending entry under the query's transaction id
(`HashMap::insert`, overwriting any entry with that id) and fans the datagram
out to the upstreams.  An upstream datagram shorter than 12 bytes is dropped;
otherwise the entry under its transaction id is looked up and removed
(`HashMap::remove`): when present the datagram goes to the recorded client
and feeds `process_response`, when absent it is discarded. -/
def udpStep (bl : List (List Nat)) (st : UdpState) (e : UdpEvent) :
    UdpState × List UdpOutput :=
  match e with
  | .clientMsg data src now =>
    if data.length < 12 then (st, [])
    else
      match process_query bl st.cache now data with
      | (.Invalid, c2) => ({ st with cache := c2 }, [])
      | (.Blocked resp _, c2) => ({ st with cache := c2 }, [.sendClient src resp])
      | (.Cached resp _, c2) => ({ st with cache := c2 }, [.sendClient src resp])
      | (.Forward d, c2) =>
        let id := be16 (data.getD 0 0) (data.getD 1 0)
        ({ pending := (id, ⟨src, d, now, now⟩) :: st.pending.filter fun kv => ¬ kv.1 = id,
           cache := c2 },
         [.sendUpstreams data])
  | .upstreamMsg data now =>
    if data.length < 12 then (st, [])
    else
      let id := be16 (data.getD 0 0) (data.getD 1 0)
      match pendingFind st.pending id with
      | some pq =>
        ({ pending := st.pending.filter fun kv => ¬ kv.1 = id,
           cache := process_response st.cache now data },
         [.sendClient pq.client_addr data])
      | none => (st, [])

/-- Run the UDP loop over a sequence of events, collecting the outputs. -/
def udpRun (bl : List (List Nat)) (st : UdpState) : List UdpEvent → UdpState × List UdpOutput
  | [] => (st, [])
  | e :: es =>
    let (st2, out) := udpStep bl st e
    let (st3, outs) := udpRun bl st2 es
    (st3, out ++ outs)

section AssocLemmas

variable {κ β : Type} [DecidableEq κ]

theorem assoc_find_filter_self (l : List (κ × β)) (k : κ) :
    ((l.filter fun kv => ¬ kv.1 = k).find? fun kv => kv.1 = k) = none := by
  induction l with
  | nil => rfl
  | cons a rest ih =>
    rw [List.filter_cons]
    by_cases ha : a.1 = k
    · rw [if_neg (by simpa using ha)]
      exact ih
    · rw [if_pos (by simpa using ha), List.find?_cons_of_neg _ (by simpa using ha)]
      exact ih

theorem assoc_find_filter_ne (l : List (κ × β)) (k k2 : κ) (h : k2 ≠ k) :
    ((l.filter fun kv => ¬ kv.1 = k).find? fun kv => kv.1 = k2)
      = l.find? fun kv => kv.1 = k2 := by
  induction l with
  | nil => rfl
  | cons a rest ih =>
    rw [List.filter_cons]
    by_cases ha : a.1 = k
    · have ha2 : ¬ a.1 = k2 := fun hc => h (hc.symm.trans ha)
      rw [if_neg (by simpa using ha), List.find?_cons_of_neg _ (by simpa using ha2)]
      exact ih
    · by_cases ha2 : a.1 = k2
      · rw [if_pos (by simpa using ha), List.find?_cons_of_pos _ (by simpa using ha2),
          List.find?_cons_of_pos _ (by simpa using ha2)]
      · rw [if_pos (by simpa using ha), List.find?_cons_of_neg _ (by simpa using ha2),
          List.find?_cons_of_neg _ (by simpa using ha2)]
        exact ih

end AssocLemmas

theorem cacheFind_cons (entries : List ((Nat × List Nat) × CacheEntry)) (m M : Nat)
    (k : Nat × List Nat) (e : CacheEntry) :
    cacheFind ⟨(k, e) :: entries, m, M⟩ k = some e := by
  show ((((k, e) :: entries).find? fun kv => kv.1 = k).map (·.2)) = some e
  rw [List.find?_cons_of_pos _ (by simp)]
  rfl

theorem cacheFind_cons_ne (entries : List ((Nat × List Nat) × CacheEntry)) (m M : Nat)
    (k k2 : Nat × List Nat) (e : CacheEntry) (h : k2 ≠ k) :
    cacheFind ⟨(k, e) :: entries, m, M⟩ k2 = cacheFind ⟨entries, m, M⟩ k2 := by
  show ((((k, e) :: entries).find? fun kv => kv.1 = k2).map (·.2)) = _
  rw [List.find?_cons_of_neg _ (by simpa using fun hc => h hc.symm)]
  rfl

theorem cacheFind_filter_self (entries : List ((Nat × List Nat) × CacheEntry)) (m M : Nat)
    (k : Nat × List Nat) :
    cacheFind ⟨entries.filter fun kv => ¬ kv.1 = k, m, M⟩ k = none := by
  show (((entries.filter fun kv => ¬ kv.1 = k).find? fun kv => kv.1 = k).map (·.2)) = none
  rw [assoc_find_filter_self]
  rfl

theorem cacheFind_filter_ne (entries : List ((Nat × List Nat) × CacheEntry)) (m M : Nat)
    (k k2 : Nat × List Nat) (h : k2 ≠ k) :
    cacheFind ⟨entries.filter fun kv => ¬ kv.1 = k, m, M⟩ k2 = cacheFind ⟨entries, m, M⟩ k2 := by
  show (((entries.filter fun kv => ¬ kv.1 = k).find? fun kv => kv.1 = k2).map (·.2)) = _
  rw [assoc_find_filter_ne _ _ _ h]
  rfl

/-- C5, as the code has it.  The fresh-hit branch additionally needs the
stored bytes to be at least two long, because `response_from_cache` refuses
shorter buffers; a fresh hit on shorter stored bytes yields `none` and leaves
the cache untouched. -/
theorem cache_get_characterization (c : DnsCache) (now : Nat) (q : DnsQuery) :
    (∀ e, cacheFind c (q.qtype, q.domain) = some e →
      (now < e.expires_at → 2 ≤ e.response.length →
        c.get now q = (some (q.id / 256 % 256 :: q.id % 256 :: e.response.drop 2), c))
      ∧ (now < e.expires_at → e.response.length < 2 → c.get now q = (none, c))
      ∧ (e.expires_at ≤ now →
          (c.get now q).1 = none
          ∧ cacheFind (c.get now q).2 (q.qtype, q.domain) = none
          ∧ ∀ k, k ≠ (q.qtype, q.domain) → cacheFind (c.get now q).2 k = cacheFind c k))
    ∧ (cacheFind c (q.qtype, q.domain) = none → c.get now q = (none, c)) := by
  constructor
  · intro e he
    refine ⟨?_, ?_, ?_⟩
    · intro hfresh hlen
      simp [DnsCache.get, he, hfresh, DnsQuery.response_from_cache, Nat.not_lt.mpr hlen]
    · intro hfresh hlen
      simp [DnsCache.get, he, hfresh, DnsQuery.response_from_cache, hlen]
    · intro hexp
      have hnl : ¬ now < e.expires_at := Nat.not_lt.mpr hexp
      have hget : c.get now q =
          (none, ⟨c.entries.filter fun kv => ¬ kv.1 = (q.qtype, q.domain),
                  c.min_ttl, c.max_ttl⟩) := by
        simp [DnsCache.get, he, hnl]
      refine ⟨by rw [hget], ?_, ?_⟩
      · rw [hget]
        exact cacheFind_filter_self _ _ _ _
      · intro k hk
        rw [hget]
        exact cacheFind_filter_ne _ _ _ _ _ hk
  · intro hnone
    simp [DnsCache.get, hnone]

theorem cache_get_counterexample :
    cacheFind ⟨[((1, [97]), ⟨[0], 10⟩)], 60, 86400⟩ (1, [97]) = some ⟨[0], 10⟩
    ∧ (0 : Nat) < 10
    ∧ (DnsCache.get ⟨[((1, [97]), ⟨[0], 10⟩)], 60, 86400⟩ 0 ⟨43707, [97], 1, 1⟩).1 = none := by
  refine ⟨rfl, by decide, rfl⟩

theorem cache_get_witness :
    DnsCache.get ⟨[((1, [97]), ⟨[1, 2, 9, 9], 10⟩)], 60, 86400⟩ 0 ⟨43707, [97], 1, 1⟩
      = (some [170, 187, 9, 9], ⟨[((1, [97]), ⟨[1, 2, 9, 9], 10⟩)], 60, 86400⟩) := by
  have h := ((cache_get_characterization ⟨[((1, [97]), ⟨[1, 2, 9, 9], 10⟩)], 60, 86400⟩ 0
      ⟨43707, [97], 1, 1⟩).1 ⟨[1, 2, 9, 9], 10⟩ rfl).1 (by decide) (by decide)
  simpa using h

/-- C6: the stored entry after a `put`. -/
theorem cache_put_characterization (c : DnsCache) (now : Nat) (q : DnsQuery)
    (resp : List Nat) (hmin : c.min_ttl = 60) (hmax : c.max_ttl = 86400) :
    cacheFind (c.put now q resp) (q.qtype, q.domain)
      = some ⟨resp, now + min (max (parse_min_ttl resp 60) 60) 86400⟩
    ∧ (∀ k, k ≠ (q.qtype, q.domain) → cacheFind (c.put now q resp) k = cacheFind c k)
    ∧ (parse_min_ttl resp 60 = 10 →
        cacheFind (c.put now q resp) (q.qtype, q.domain) = some ⟨resp, now + 60⟩) := by
  have h1 : cacheFind (c.put now q resp) (q.qtype, q.domain)
      = some ⟨resp, now + min (max (parse_min_ttl resp c.min_ttl) c.min_ttl) c.max_ttl⟩ :=
    cacheFind_cons _ _ _ _ _
  refine ⟨?_, ?_, ?_⟩
  · rw [h1, hmin, hmax]
  · intro k hk
    have h2 : cacheFind (c.put now q resp) k
        = cacheFind ⟨c.entries.filter fun kv => ¬ kv.1 = (q.qtype, q.domain),
                     c.min_ttl, c.max_ttl⟩ k :=
      cacheFind_cons_ne _ _ _ _ _ _ hk
    rw [h2]
    exact cacheFind_filter_ne _ _ _ _ _ hk
  · intro h10
    rw [h1, hmin, hmax, h10]
    norm_num

theorem cache_put_witness :
    cacheFind
      (DnsCache.put ⟨[], 60, 86400⟩ 1000 ⟨1, [97], 1, 1⟩
        ([0, 1, 0x81, 0x80, 0, 1, 0, 1, 0, 0, 0, 0] ++
         [1, 97, 0, 0, 1, 0, 1] ++
         [0xC0, 0x0C, 0, 1, 0, 1, 0, 0, 0, 10, 0, 0]))
      (1, [97])
      = some ⟨[0, 1, 0x81, 0x80, 0, 1, 0, 1, 0, 0, 0, 0] ++
              [1, 97, 0, 0, 1, 0, 1] ++
              [0xC0, 0x0C, 0, 1, 0, 1, 0, 0, 0, 10, 0, 0], 1060⟩ := by
  have httl : parse_min_ttl
      ([0, 1, 0x81, 0x80, 0, 1, 0, 1, 0, 0, 0, 0] ++
       [1, 97, 0, 0, 1, 0, 1] ++
       [0xC0, 0x0C, 0, 1, 0, 1, 0, 0, 0, 10, 0, 0]) 60 = 10 := by
    simp [parse_min_ttl, rrLoop, skipName, be16, be32, u32max]
  have h := (cache_put_characterization ⟨[], 60, 86400⟩ 1000 ⟨1, [97], 1, 1⟩
      ([0, 1, 0x81, 0x80, 0, 1, 0, 1, 0, 0, 0, 0] ++
       [1, 97, 0, 0, 1, 0, 1] ++
       [0xC0, 0x0C, 0, 1, 0, 1, 0, 0, 0, 10, 0, 0]) rfl rfl).2.2 httl
  simpa using h

/-- Helper for C10: the counter balance is preserved by any run. -/
theorem statsRun_balance (ops : List StatsOp) (s : Stats)
    (h : s.requests = s.forwarded + s.cached + s.blocked) :
    (statsRun s ops).requests
      = (statsRun s ops).forwarded + (statsRun s ops).cached + (statsRun s ops).blocked := by
  induction ops generalizing s with
  | nil => simpa [statsRun] using h
  | cons op rest ih =>
    cases op with
    | forwarded us =>
      exact ih _ (by simp [Stats.record_forwarded, h]; omega)
    | cached us =>
      exact ih _ (by simp [Stats.record_cached, h]; omega)
    | blocked us =>
      exact ih _ (by simp [Stats.record_blocked, h]; omega)
    | snapshot =>
      exact ih _ (by simp [Stats.snapshot_and_reset, Stats.new])

/-- C10: the balance invariant over every call sequence, the per-operation
increments, and the snapshot contract. -/
theorem stats_invariant :
    (∀ ops : List StatsOp,
      (statsRun Stats.new ops).requests
        = (statsRun Stats.new ops).forwarded + (statsRun Stats.new ops).cached
          + (statsRun Stats.new ops).blocked)
    ∧ (∀ (s : Stats) (us : Nat),
        (s.record_forwarded us).requests = s.requests + 1
        ∧ (s.record_forwarded us).forwarded = s.forwarded + 1
        ∧ (s.record_forwarded us).cached = s.cached
        ∧ (s.record_forwarded us).blocked = s.blocked
        ∧ (s.record_cached us).requests = s.requests + 1
        ∧ (s.record_cached us).cached = s.cached + 1
        ∧ (s.record_cached us).forwarded = s.forwarded
        ∧ (s.record_cached us).blocked = s.blocked
        ∧ (s.record_blocked us).requests = s.requests + 1
        ∧ (s.record_blocked us).blocked = s.blocked + 1
        ∧ (s.record_blocked us).forwarded = s.forwarded
        ∧ (s.record_blocked us).cached = s.cached)
    ∧ (∀ s : Stats,
        (s.snapshot_and_reset.1.requests = s.requests
         ∧ s.snapshot_and_reset.1.forwarded = s.forwarded
         ∧ s.snapshot_and_reset.1.cached = s.cached
         ∧ s.snapshot_and_reset.1.blocked = s.blocked)
        ∧ (s.snapshot_and_reset.2.requests = 0
           ∧ s.snapshot_and_reset.2.forwarded = 0
           ∧ s.snapshot_and_reset.2.cached = 0
           ∧ s.snapshot_and_reset.2.blocked = 0
           ∧ s.snapshot_and_reset.2.total_response_time_us = 0)
        ∧ (s.requests = 0 → s.snapshot_and_reset.1.avg_response_ms = 0)) := by
  refine ⟨?_, ?_, ?_⟩
  · intro ops
    exact statsRun_balance ops Stats.new (by simp [Stats.new])
  · intro s us
    simp [Stats.record_forwarded, Stats.record_cached, Stats.record_blocked]
  · intro s
    refine ⟨by simp [Stats.snapshot_and_reset], by simp [Stats.snapshot_and_reset, Stats.new], ?_⟩
    intro h0
    simp [Stats.snapshot_and_reset, h0]

theorem is_blocked_mem (bl : List (List Nat)) (d : List Nat) (h : d ∈ bl) :
    is_blocked bl d = true := by
  rw [is_blocked]
  simp [h]

theorem is_blocked_step (bl : List (List Nat)) (d r : List Nat) (hmem : d ∉ bl)
    (haft : afterDot d = some r) : is_blocked bl d = is_blocked bl r := by
  rw [is_blocked]
  simp only [if_neg hmem]
  split
  · rename_i heq
    rw [haft] at heq
    cases heq
    rfl
  · rename_i heq
    rw [haft] at heq
    cases heq

theorem is_blocked_end (bl : List (List Nat)) (d : List Nat) (hmem : d ∉ bl)
    (haft : afterDot d = none) : is_blocked bl d = false := by
  rw [is_blocked]
  simp only [if_neg hmem]
  split
  · rename_i heq
    rw [haft] at heq
    cases heq
  · rfl

theorem afterDot_some_split (d r : List Nat) (h : afterDot d = some r) :
    ∃ p, d = p ++ 46 :: r := by
  induction d generalizing r with
  | nil => simp [afterDot] at h
  | cons a rest ih =>
    by_cases ha : a = 46
    · refine ⟨[], ?_⟩
      simp [afterDot, ha] at h
      simp [ha, h]
    · simp only [afterDot, if_neg ha] at h
      obtain ⟨p, hp⟩ := ih r h
      exact ⟨a :: p, by simp [hp]⟩

theorem afterDot_none_no_dot (d : List Nat) (h : afterDot d = none) : 46 ∉ d := by
  induction d with
  | nil => simp
  | cons a rest ih =>
    by_cases ha : a = 46
    · simp [afterDot, ha] at h
    · simp only [afterDot, if_neg ha] at h
      simp [ih h]
      omega

theorem afterDot_append_dot (p s : List Nat) :
    ∃ r, afterDot (p ++ 46 :: s) = some r ∧ (r = s ∨ ∃ p2, r = p2 ++ 46 :: s) := by
  induction p with
  | nil => exact ⟨s, by simp [afterDot], Or.inl rfl⟩
  | cons a p1 ih =>
    by_cases ha : a = 46
    · exact ⟨p1 ++ 46 :: s, by simp [afterDot, ha], Or.inr ⟨p1, rfl⟩⟩
    · obtain ⟨r, hr, hcase⟩ := ih
      exact ⟨r, by simpa [afterDot, ha] using hr, hcase⟩

theorem is_blocked_iff_aux (bl : List (List Nat)) (n : Nat) :
    ∀ d : List Nat, d.length < n →
      (is_blocked bl d = true ↔ ∃ s, s ∈ bl ∧ (d = s ∨ ∃ p, d = p ++ 46 :: s)) := by
  induction n with
  | zero => exact fun d h => absurd h (Nat.not_lt_zero _)
  | succ n ih =>
    intro d hd
    by_cases hmem : d ∈ bl
    · exact ⟨fun _ => ⟨d, hmem, Or.inl rfl⟩, fun _ => is_blocked_mem bl d hmem⟩
    · cases haft : afterDot d with
      | none =>
        rw [is_blocked_end bl d hmem haft]
        constructor
        · intro hfalse
          cases hfalse
        · rintro ⟨s, hs, hcase⟩
          rcases hcase with rfl | ⟨p, rfl⟩
          · exact absurd hs hmem
          · exact absurd (by simp : (46 : Nat) ∈ p ++ 46 :: s) (afterDot_none_no_dot _ haft)
      | some r =>
        have hlen := afterDot_length d r haft
        have ihr := ih r (by omega)
        rw [is_blocked_step bl d r hmem haft]
        constructor
        · intro hblk
          obtain ⟨s, hs, hcase⟩ := ihr.mp hblk
          obtain ⟨p, hp⟩ := afterDot_some_split d r haft
          rcases hcase with heq | ⟨p2, heq⟩
          · exact ⟨s, hs, Or.inr ⟨p, heq ▸ hp⟩⟩
          · exact ⟨s, hs, Or.inr ⟨p ++ 46 :: p2, by rw [hp, heq]; simp⟩⟩
        · rintro ⟨s, hs, hcase⟩
          rcases hcase with rfl | ⟨p, rfl⟩
          · exact absurd hs hmem
          · obtain ⟨r2, hr2, hcase2⟩ := afterDot_append_dot p s
            rw [haft] at hr2
            cases hr2
            exact ihr.mpr ⟨s, hs, hcase2⟩

theorem from_lines_members_nonempty (lines : List (List Nat)) (m : List Nat)
    (hm : m ∈ from_lines lines) : m ≠ [] := by
  simp only [from_lines, List.mem_filterMap] at hm
  obtain ⟨line, _, hline⟩ := hm
  by_cases hc : trimBytes line = [] ∨ (trimBytes line).headD 0 = 35 ∨ (trimBytes line).headD 0 = 33
  · rw [if_pos hc] at hline
    cases hline
  · rw [if_neg hc] at hline
    have ht : trimBytes line ≠ [] := fun he => hc (Or.inl he)
    intro hme
    cases hline
    exact ht (by simpa [lowerBytes] using hme)

theorem rrLoop_eq_foldl (resp : List Nat) (n : Nat) :
    ∀ pos m, rrLoop resp n pos m = (rrCollect resp n pos).foldl min m := by
  induction n with
  | zero => intro pos m; rfl
  | succ n ih =>
    intro pos m
    rw [rrLoop, rrCollect]
    by_cases h1 : resp.length ≤ pos
    · rw [if_pos h1, if_pos h1]
      rfl
    · rw [if_neg h1, if_neg h1]
      by_cases h2 : resp.length < skipName resp pos + 10
      · rw [if_pos h2, if_pos h2]
        rfl
      · rw [if_neg h2, if_neg h2]
        simp only [List.foldl_cons]
        exact ih _ _

theorem foldl_min_fix (l : List Nat) (m : Nat) (h : ∀ t ∈ l, m ≤ t) :
    l.foldl min m = m := by
  induction l with
  | nil => rfl
  | cons x xs ih =>
    rw [List.foldl_cons, min_eq_left (h x (by simp))]
    exact ih fun t ht => h t (by simp [ht])

theorem foldl_min_eq_of_min (l : List Nat) (m : Nat) (hm : m ∈ l)
    (hle : ∀ t ∈ l, m ≤ t) : ∀ a, m ≤ a → l.foldl min a = m := by
  induction l with
  | nil => cases hm
  | cons x xs ih =>
    intro a ha
    rw [List.foldl_cons]
    rcases List.mem_cons.mp hm with rfl | hmx
    · rw [min_eq_right ha]
      exact foldl_min_fix xs m fun t ht => hle t (by simp [ht])
    · exact ih hmx (fun t ht => hle t (by simp [ht])) _
        (le_min ha (hle x (by simp)))

theorem getD_mem_of_lt (l : List Nat) (i : Nat) (h : i < l.length) : l.getD i 0 ∈ l := by
  rw [List.getD_eq_getElem l 0 h]
  exact List.getElem_mem h

theorem rrCollect_le_u32max (resp : List Nat) (hb : ∀ b ∈ resp, b < 256) (n : Nat) :
    ∀ pos, ∀ t ∈ rrCollect resp n pos, t ≤ u32max := by
  induction n with
  | zero => intro pos t ht; cases ht
  | succ n ih =>
    intro pos t ht
    rw [rrCollect] at ht
    by_cases h1 : resp.length ≤ pos
    · rw [if_pos h1] at ht; cases ht
    · rw [if_neg h1] at ht
      by_cases h2 : resp.length < skipName resp pos + 10
      · rw [if_pos h2] at ht; cases ht
      · rw [if_neg h2] at ht
        rcases List.mem_cons.mp ht with rfl | htail
        · have hlt : ∀ j, skipName resp pos + 4 ≤ j → j ≤ skipName resp pos + 7 →
              resp.getD j 0 < 256 := by
            intro j hj1 hj2
            exact hb _ (getD_mem_of_lt resp j (by omega))
          have b4 := hlt (skipName resp pos + 4) (by omega) (by omega)
          have b5 := hlt (skipName resp pos + 5) (by omega) (by omega)
          have b6 := hlt (skipName resp pos + 6) (by omega) (by omega)
          have b7 := hlt (skipName resp pos + 7) (by omega) (by omega)
          simp only [be32, u32max]
          omega
        · exact ih _ t htail

/-- C7, as the code has it: the default is returned exactly when the scan
extracts no TTL, or when every extracted TTL is the sentinel `u32::MAX`;
in every other case the result is the minimum of the TTLs actually
extracted, regardless of how many records the header promised. -/
theorem parse_min_ttl_characterization (resp : List Nat) (d : Nat)
    (hb : ∀ b ∈ resp, b < 256) :
    (collect_ttls resp = [] → parse_min_ttl resp d = d)
    ∧ ((∀ t ∈ collect_ttls resp, t = u32max) → parse_min_ttl resp d = d)
    ∧ (∀ m ∈ collect_ttls resp, (∀ t ∈ collect_ttls resp, m ≤ t) → m ≠ u32max →
        parse_min_ttl resp d = m) := by
  have hcore : ∀ h12 : ¬ resp.length < 12,
      ∀ htot : ¬ (be16 (resp.getD 6 0) (resp.getD 7 0) + be16 (resp.getD 8 0) (resp.getD 9 0)
          + be16 (resp.getD 10 0) (resp.getD 11 0)) = 0,
      parse_min_ttl resp d
        = (if (collect_ttls resp).foldl min u32max = u32max then d
           else (collect_ttls resp).foldl min u32max) := by
    intro h12 htot
    rw [parse_min_ttl, if_neg h12]
    simp only [if_neg htot]
    rw [rrLoop_eq_foldl]
    rw [collect_ttls, if_neg h12]
    simp only [if_neg htot]
  refine ⟨?_, ?_, ?_⟩
  · intro hempty
    by_cases h12 : resp.length < 12
    · rw [parse_min_ttl, if_pos h12]
    by_cases htot : (be16 (resp.getD 6 0) (resp.getD 7 0) + be16 (resp.getD 8 0) (resp.getD 9 0)
        + be16 (resp.getD 10 0) (resp.getD 11 0)) = 0
    · rw [parse_min_ttl, if_neg h12]
      simp only [if_pos htot]
    · rw [hcore h12 htot, hempty]
      simp
  · intro hall
    by_cases h12 : resp.length < 12
    · rw [parse_min_ttl, if_pos h12]
    by_cases htot : (be16 (resp.getD 6 0) (resp.getD 7 0) + be16 (resp.getD 8 0) (resp.getD 9 0)
        + be16 (resp.getD 10 0) (resp.getD 11 0)) = 0
    · rw [parse_min_ttl, if_neg h12]
      simp only [if_pos htot]
    · rw [hcore h12 htot]
      rw [foldl_min_fix _ _ (fun t ht => (hall t ht).ge)]
      simp
  · intro m hm hmin hne
    by_cases h12 : resp.length < 12
    · rw [collect_ttls, if_pos h12] at hm
      cases hm
    by_cases htot : (be16 (resp.getD 6 0) (resp.getD 7 0) + be16 (resp.getD 8 0) (resp.getD 9 0)
        + be16 (resp.getD 10 0) (resp.getD 11 0)) = 0
    · rw [collect_ttls, if_neg h12] at hm
      simp only [if_pos htot] at hm
      cases hm
    · have hle : m ≤ u32max := by
        have := rrCollect_le_u32max resp hb
        rw [collect_ttls, if_neg h12] at hm
        simp only [if_neg htot] at hm
        exact this _ _ m hm
      rw [hcore h12 htot, foldl_min_eq_of_min _ m hm hmin u32max hle]
      rw [if_neg hne]

theorem parse_min_ttl_witness :
    parse_min_ttl
      ([0, 1, 0x81, 0x80, 0, 1, 0, 1, 0, 0, 0, 0] ++ [1, 97, 0, 0, 1, 0, 1] ++
       [0xC0, 0x0C, 0, 1, 0, 1, 0, 0, 0, 7, 0, 0]) 60 = 7 := by
  have h := (parse_min_ttl_characterization
      ([0, 1, 0x81, 0x80, 0, 1, 0, 1, 0, 0, 0, 0] ++ [1, 97, 0, 0, 1, 0, 1] ++
       [0xC0, 0x0C, 0, 1, 0, 1, 0, 0, 0, 7, 0, 0]) 60 (by decide)).2.2 7 ?_ ?_ (by decide)
  · exact h
  · simp [collect_ttls, rrCollect, skipName, be16, be32]
  · intro t ht
    simp [collect_ttls, rrCollect, skipName, be16, be32] at ht
    omega

theorem parse_min_ttl_counterexample :
    parse_min_ttl
      ([0, 1, 0x81, 0x80, 0, 1, 0, 2, 0, 0, 0, 0] ++ [1, 97, 0, 0, 1, 0, 1] ++
       [0xC0, 0x0C, 0, 1, 0, 1, 0, 0, 0, 5, 0, 0]) 60 = 5
    ∧ parse_min_ttl
      ([0, 1, 0x81, 0x80, 0, 1, 0, 2, 0, 0, 0, 0] ++ [1, 97, 0, 0, 1, 0, 1] ++
       [0xC0, 0x0C, 0, 1, 0, 1, 0, 0, 0, 5, 0, 0]) 999 = 5 := by
  constructor
  · simp [parse_min_ttl, rrLoop, skipName, be16, be32, u32max]
  · simp [parse_min_ttl, rrLoop, skipName, be16, be32, u32max]

/-- C4: `is_blocked` answers `true` exactly on exact members and on
label-aligned parent suffixes; a blocklist built by the source's constructor
never blocks the empty string; blocking is closed under prefixing a label;
and the partial-label suffix `notdoubleclick.com` does not match a blocklist
holding `doubleclick.com`. -/
theorem blocklist_suffix_semantics :
    (∀ (bl : List (List Nat)) (d : List Nat),
      is_blocked bl d = true ↔ ∃ s, s ∈ bl ∧ (d = s ∨ ∃ p, d = p ++ 46 :: s))
    ∧ (∀ lines : List (List Nat), is_blocked (from_lines lines) [] = false)
    ∧ (∀ (bl : List (List Nat)) (a x : List Nat), 46 ∉ a →
        is_blocked bl x = true → is_blocked bl (a ++ 46 :: x) = true)
    ∧ is_blocked [[100, 111, 117, 98, 108, 101, 99, 108, 105, 99, 107, 46, 99, 111, 109]]
        [110, 111, 116, 100, 111, 117, 98, 108, 101, 99, 108, 105, 99, 107, 46, 99, 111, 109]
        = false := by
  have hiff : ∀ (bl : List (List Nat)) (d : List Nat),
      is_blocked bl d = true ↔ ∃ s, s ∈ bl ∧ (d = s ∨ ∃ p, d = p ++ 46 :: s) :=
    fun bl d => is_blocked_iff_aux bl (d.length + 1) d (Nat.lt_succ_self _)
  refine ⟨hiff, ?_, ?_, ?_⟩
  · intro lines
    exact is_blocked_end _ _ (fun hmem => from_lines_members_nonempty lines [] hmem rfl) rfl
  · intro bl a x _ hx
    obtain ⟨s, hs, hcase⟩ := (hiff bl x).mp hx
    refine (hiff bl (a ++ 46 :: x)).mpr ⟨s, hs, Or.inr ?_⟩
    rcases hcase with rfl | ⟨p, rfl⟩
    · exact ⟨a, rfl⟩
    · exact ⟨a ++ 46 :: p, by simp⟩
  · rw [Bool.eq_false_iff]
    intro hblk
    obtain ⟨s, hs, hcase⟩ := (hiff _ _).mp hblk
    simp only [List.mem_singleton] at hs
    subst hs
    rcases hcase with heq | ⟨p, hp⟩
    · simp at heq
    · have : p ++ 46 :: [100, 111, 117, 98, 108, 101, 99, 108, 105, 99, 107, 46, 99, 111, 109]
          = [110, 111, 116, 100, 111, 117, 98, 108, 101, 99, 108, 105, 99, 107, 46, 99, 111,
             109] := hp.symm
      have hlen : p.length + 16 = 18 := by
        have := congrArg List.length this
        simpa using this
      have hp2 : p.length = 2 := by omega
      match p, hp2 with
      | [b0, b1], _ => simp at this

theorem blocklist_suffix_witness :
    is_blocked [[97, 46, 98]] [119, 119, 119, 46, 97, 46, 98] = true := by
  have h := blocklist_suffix_semantics.2.2.1 [[97, 46, 98]] [119, 119, 119] [97, 46, 98]
    (by decide) (by simp [is_blocked])
  simpa using h

theorem stats_invariant_witness :
    (statsRun Stats.new [.forwarded 5, .cached 3, .blocked 2]).requests
      = (statsRun Stats.new [.forwarded 5, .cached 3, .blocked 2]).forwarded
        + (statsRun Stats.new [.forwarded 5, .cached 3, .blocked 2]).cached
        + (statsRun Stats.new [.forwarded 5, .cached 3, .blocked 2]).blocked
    ∧ (Stats.new.snapshot_and_reset.1.avg_response_ms = 0) := by
  exact ⟨stats_invariant.1 [.forwarded 5, .cached 3, .blocked 2],
         (stats_invariant.2.2 Stats.new).2.2 rfl⟩


theorem utf8Valid_cons_step (a : Nat) (rest r : List Nat) (hstep : utf8Step a rest = some r) :
    utf8Valid (a :: rest) = utf8Valid r := by
  rw [utf8Valid]
  split
  · rename_i heq
    rw [hstep] at heq
    cases heq
    rfl
  · rename_i heq
    rw [hstep] at heq
    cases heq

theorem utf8Valid_of_ascii (l : List Nat) (h : ∀ b ∈ l, b < 128) : utf8Valid l = true := by
  induction l with
  | nil => rw [utf8Valid]
  | cons a rest ih =>
    have ha : a ≤ 0x7F := by
      have := h a (by simp)
      omega
    rw [utf8Valid_cons_step a rest rest (by simp [utf8Step, ha])]
    exact ih fun b hb => h b (by simp [hb])

theorem parseLoop_encode (labels : List (List Nat)) (tail : List Nat) :
    ∀ acc, (∀ l ∈ labels, l ≠ [] ∧ l.length < 256 ∧ ∀ b ∈ l, b < 128) →
      parseLoop ((labels.map fun l => l.length :: l).flatten ++ 0 :: tail) acc
        = some (acc.reverse ++ labels, tail) := by
  induction labels with
  | nil =>
    intro acc _
    simp only [List.map_nil, List.flatten_nil, List.nil_append, List.append_nil]
    rw [parseLoop]
  | cons l ls ih =>
    intro acc hlab
    obtain ⟨hne2, hlen2, hascii⟩ := hlab l (by simp)
    obtain ⟨b, l2, rfl⟩ : ∃ b l2, l = b :: l2 := by
      cases l with
      | nil => exact absurd rfl hne2
      | cons b l2 => exact ⟨b, l2, rfl⟩
    simp only [List.map_cons, List.flatten_cons, List.length_cons, List.cons_append,
      List.append_assoc]
    have htake : (b :: (l2 ++ ((ls.map fun l => l.length :: l).flatten ++ 0 :: tail))).take
        (l2.length + 1) = b :: l2 := by
      rw [List.take_succ_cons, List.take_left]
    have hdrop : (b :: (l2 ++ ((ls.map fun l => l.length :: l).flatten ++ 0 :: tail))).drop
        (l2.length + 1) = (ls.map fun l => l.length :: l).flatten ++ 0 :: tail := by
      rw [List.drop_succ_cons, List.drop_left]
    have hle : l2.length + 1
        ≤ (b :: (l2 ++ ((ls.map fun l => l.length :: l).flatten ++ 0 :: tail))).length := by
      simp <;> omega
    rw [parseLoop, if_pos hle, htake, if_pos (utf8Valid_of_ascii _ hascii), hdrop,
      ih ((b :: l2) :: acc) (fun l hl => hlab l (by simp [hl]))]
    all_goals simp

/-- C8: a query assembled from an arbitrary 12-byte header and one
uncompressed question with nonempty ASCII labels parses back to exactly the
encoded id, qtype and qclass and to the dot-joined, ASCII-lowercased labels;
and the concrete S1 bytes parse to id 0x1234, domain `example.com`, qtype 1,
qclass 1. -/
theorem parse_roundtrip :
    (∀ (hdr : List Nat) (labels : List (List Nat)) (qt qc : Nat),
      hdr.length = 12 → labels ≠ [] →
      (∀ l ∈ labels, l ≠ [] ∧ l.length < 256 ∧ ∀ b ∈ l, b < 128) →
      qt < 65536 → qc < 65536 →
      DnsQuery.parse (hdr ++ encodeQuestion labels qt qc)
        = some ⟨be16 (hdr.getD 0 0) (hdr.getD 1 0),
                lowerBytes (List.intercalate [46] labels), qt, qc⟩)
    ∧ DnsQuery.parse
        [0x12, 0x34, 0x01, 0x00, 0x00, 0x01, 0, 0, 0, 0, 0, 0,
         7, 101, 120, 97, 109, 112, 108, 101, 3, 99, 111, 109, 0, 0, 1, 0, 1]
        = some ⟨0x1234, [101, 120, 97, 109, 112, 108, 101, 46, 99, 111, 109], 1, 1⟩ := by
  constructor
  · intro hdr labels qt qc h12 hne hlab hqt hqc
    have hlen : ¬ (hdr ++ encodeQuestion labels qt qc).length < 13 := by
      simp [encodeQuestion, h12]
      omega
    have hdrop : (hdr ++ encodeQuestion labels qt qc).drop 12
        = (labels.map fun l => l.length :: l).flatten
          ++ 0 :: [qt / 256, qt % 256, qc / 256, qc % 256] := by
      rw [← h12, List.drop_left]
      rfl
    have hid : ∀ i, i < 12 → (hdr ++ encodeQuestion labels qt qc).getD i 0 = hdr.getD i 0 := by
      intro i hi
      rw [List.getD_append]
      omega
    rw [DnsQuery.parse.eq_def, if_neg hlen, hdrop,
      parseLoop_encode labels [qt / 256, qt % 256, qc / 256, qc % 256] [] hlab]
    simp only [List.reverse_nil, List.nil_append]
    rw [if_neg hne, hid 0 (by omega), hid 1 (by omega)]
    have hq : be16 (qt / 256) (qt % 256) = qt := by
      simp only [be16]
      omega
    have hc2 : be16 (qc / 256) (qc % 256) = qc := by
      simp only [be16]
      omega
    simp [hq, hc2]
  · simp [DnsQuery.parse, parseLoop, lowerBytes, lowerByte, be16, List.intercalate,
      show utf8Valid [101, 120, 97, 109, 112, 108, 101] = true from by
        simp [utf8Valid, utf8Step],
      show utf8Valid [99, 111, 109] = true from by simp [utf8Valid, utf8Step]]

theorem parse_roundtrip_witness :
    DnsQuery.parse
      ([0, 0, 0, 0, 0, 1, 0, 0, 0, 0, 0, 0] ++ encodeQuestion [[65], [98]] 1 1)
      = some ⟨0, [97, 46, 98], 1, 1⟩ := by
  have h := parse_roundtrip.1 [0, 0, 0, 0, 0, 1, 0, 0, 0, 0, 0, 0] [[65], [98]] 1 1
    rfl (by simp) (by decide) (by decide) (by decide)
  simpa [be16, lowerBytes, lowerByte, List.intercalate] using h

theorem getD_append_length (p l2 : List Nat) : (p ++ l2).getD p.length 0 = l2.getD 0 0 := by
  induction p with
  | nil => rfl
  | cons a p ih => simpa using ih

theorem parseLoop_reconstruct_aux (n : Nat) :
    ∀ (l : List Nat) (acc ls : List (List Nat)) (rest : List Nat), l.length < n →
      parseLoop l acc = some (ls, rest) → rest ≠ [] →
      ∃ ls2, ls = acc.reverse ++ ls2
        ∧ (∀ x ∈ ls2, x ≠ [] ∧ utf8Valid x = true)
        ∧ l = (ls2.map fun x => x.length :: x).flatten ++ 0 :: rest := by
  induction n with
  | zero => exact fun l _ _ _ h => absurd h (Nat.not_lt_zero _)
  | succ n ih =>
    intro l acc ls rest hlen h hrest
    match l with
    | [] =>
      rw [parseLoop] at h
      cases h
      exact absurd rfl hrest
    | 0 :: tail =>
      rw [parseLoop] at h
      cases h
      exact ⟨[], by simp, by simp, by simp⟩
    | (m + 1) :: tail =>
      have hstep : parseLoop ((m + 1) :: tail) acc
          = (if m + 1 ≤ tail.length then
              (if utf8Valid (tail.take (m + 1)) then
                parseLoop (tail.drop (m + 1)) (tail.take (m + 1) :: acc)
              else none)
            else none) := by
        rw [parseLoop]
        simp
      rw [hstep] at h
      by_cases h1 : m + 1 ≤ tail.length
      · rw [if_pos h1] at h
        by_cases h2 : utf8Valid (tail.take (m + 1)) = true
        · rw [if_pos h2] at h
          have htl : (tail.drop (m + 1)).length < n := by
            simp only [List.length_cons] at hlen
            simp only [List.length_drop]
            omega
          obtain ⟨ls2, hls, hall, hrec⟩ := ih _ _ _ _ htl h hrest
          refine ⟨tail.take (m + 1) :: ls2, ?_, ?_, ?_⟩
          · rw [hls]
            simp
          · intro x hx
            rcases List.mem_cons.mp hx with rfl | hx2
            · refine ⟨?_, h2⟩
              have : (tail.take (m + 1)).length = m + 1 := by
                simp [List.length_take]
                omega
              intro hc
              rw [hc] at this
              simp at this
            · exact hall x hx2
          · have htlen : (tail.take (m + 1)).length = m + 1 := by
              simp [List.length_take]
              omega
            simp only [List.map_cons, List.flatten_cons, htlen, List.cons_append,
              List.append_assoc]
            rw [← hrec, List.take_append_drop]
        · rw [if_neg h2] at h
          cases h
      · rw [if_neg h1] at h
        cases h

theorem parseLoop_reconstruct (l : List Nat) (acc ls : List (List Nat)) (rest : List Nat)
    (h : parseLoop l acc = some (ls, rest)) (hrest : rest ≠ []) :
    ∃ ls2, ls = acc.reverse ++ ls2
      ∧ (∀ x ∈ ls2, x ≠ [] ∧ utf8Valid x = true)
      ∧ l = (ls2.map fun x => x.length :: x).flatten ++ 0 :: rest :=
  parseLoop_reconstruct_aux (l.length + 1) l acc ls rest (Nat.lt_succ_self _) h hrest

theorem parse_inversion (data : List Nat) (q : DnsQuery) (h : DnsQuery.parse data = some q) :
    13 ≤ data.length
    ∧ ∃ ls t1 t2 c1 c2 tl,
        parseLoop (data.drop 12) [] = some (ls, t1 :: t2 :: c1 :: c2 :: tl)
        ∧ ls ≠ []
        ∧ q = ⟨be16 (data.getD 0 0) (data.getD 1 0),
               lowerBytes (List.intercalate [46] ls), be16 t1 t2, be16 c1 c2⟩ := by
  rw [DnsQuery.parse.eq_def] at h
  by_cases h13 : data.length < 13
  · rw [if_pos h13] at h
    cases h
  rw [if_neg h13] at h
  refine ⟨by omega, ?_⟩
  match hpl : parseLoop (data.drop 12) [] with
  | none =>
    rw [hpl] at h
    cases h
  | some (ls, rest) =>
    rw [hpl] at h
    simp only at h
    by_cases hls : ls = []
    · rw [if_pos hls] at h
      cases h
    rw [if_neg hls] at h
    match rest, h with
    | t1 :: t2 :: c1 :: c2 :: tl, h =>
      refine ⟨ls, t1, t2, c1, c2, tl, rfl, hls, ?_⟩
      cases h
      rfl

theorem qnameEnd_encode (ls : List (List Nat)) :
    ∀ (pre rest2 : List Nat), (∀ x ∈ ls, x ≠ []) →
      qnameEnd (pre ++ ((ls.map fun x => x.length :: x).flatten ++ 0 :: rest2)) pre.length
        = pre.length + ((ls.map fun x => x.length :: x).flatten).length := by
  induction ls with
  | nil =>
    intro pre rest2 _
    simp only [List.map_nil, List.flatten_nil, List.nil_append, List.length_nil, Nat.add_zero]
    rw [qnameEnd]
    have hlt : pre.length < (pre ++ 0 :: rest2).length := by
      simp
    rw [dif_pos hlt]
    have h0 : (pre ++ 0 :: rest2).getD pre.length 0 = 0 := by
      rw [getD_append_length]
      rfl
    rw [h0, if_pos rfl]
  | cons x ls2 ih =>
    intro pre rest2 hne
    have hx : x ≠ [] := (hne x (by simp))
    have hx0 : x.length ≠ 0 := fun hc => hx (List.length_eq_zero.mp hc)
    have hassoc : pre ++ (((x :: ls2).map fun x => x.length :: x).flatten ++ 0 :: rest2)
        = (pre ++ (x.length :: x)) ++ ((ls2.map fun x => x.length :: x).flatten ++ 0 :: rest2) := by
      simp [List.append_assoc]
    rw [hassoc, qnameEnd]
    have hlt : pre.length
        < ((pre ++ (x.length :: x)) ++ ((ls2.map fun x => x.length :: x).flatten
            ++ 0 :: rest2)).length := by
      simp <;> omega
    rw [dif_pos hlt]
    have hb : ((pre ++ (x.length :: x)) ++ ((ls2.map fun x => x.length :: x).flatten
        ++ 0 :: rest2)).getD pre.length 0 = x.length := by
      rw [List.append_assoc, getD_append_length]
      rfl
    rw [hb, if_neg hx0]
    have hpos : pre.length + 1 + x.length = (pre ++ (x.length :: x)).length := by
      simp <;> omega
    rw [hpos, ih (pre ++ (x.length :: x)) rest2 (fun y hy => hne y (by simp [hy]))]
    simp <;> omega

theorem take_two_append (pre l2 : List Nat) (h : 2 ≤ pre.length) :
    (pre ++ l2).take 2 = pre.take 2 := by
  rw [List.take_append_of_le_length h]

/-- Shape of `create_blocked_response` on a buffer that consists of a 12-byte
header followed by a well-formed question section: the header echo, the
verbatim question copy, and the constant sinkhole answer. -/
theorem create_blocked_response_eq (pre : List Nat) (ls : List (List Nat))
    (t1 t2 c1 c2 : Nat) (r : List Nat) (hpre : pre.length = 12)
    (hls : ∀ x ∈ ls, x ≠ []) :
    create_blocked_response
        (pre ++ ((ls.map fun x => x.length :: x).flatten ++ 0 :: t1 :: t2 :: c1 :: c2 :: r))
      = pre.take 2
        ++ [0x81, 0x80, 0x00, 0x01, 0x00, 0x01, 0x00, 0x00, 0x00, 0x00]
        ++ ((ls.map fun x => x.length :: x).flatten ++ [0, t1, t2, c1, c2])
        ++ [0xC0, 0x0C, 0x00, 0x01, 0x00, 0x01, 0x00, 0x00, 0x01, 0x2C, 0x00, 0x04,
            0x00, 0x00, 0x00, 0x00] := by
  have hq := qnameEnd_encode ls pre (t1 :: t2 :: c1 :: c2 :: r) hls
  rw [hpre] at hq
  unfold create_blocked_response
  simp only [hq]
  have hcond : 12 + ((ls.map fun x => x.length :: x).flatten).length + 5
      ≤ (pre ++ ((ls.map fun x => x.length :: x).flatten
          ++ 0 :: t1 :: t2 :: c1 :: c2 :: r)).length := by
    simp [hpre]
    omega
  rw [if_pos hcond, take_two_append _ _ (by omega)]
  have hdrop : (pre ++ ((ls.map fun x => x.length :: x).flatten
      ++ 0 :: t1 :: t2 :: c1 :: c2 :: r)).drop 12
      = (ls.map fun x => x.length :: x).flatten ++ 0 :: t1 :: t2 :: c1 :: c2 :: r := by
    rw [← hpre, List.drop_left]
  rw [hdrop]
  have harith : 12 + ((ls.map fun x => x.length :: x).flatten).length + 5 - 12
      = ((ls.map fun x => x.length :: x).flatten).length + 5 := by
    omega
  rw [harith, List.take_append]
  simp

theorem extractLoop_encode (labels : List (List Nat)) (tail : List Nat) :
    ∀ acc, (∀ l ∈ labels, l ≠ [] ∧ utf8Valid l = true) →
      extractLoop ((labels.map fun l => l.length :: l).flatten ++ 0 :: tail) acc
        = some (acc.reverse ++ labels) := by
  induction labels with
  | nil =>
    intro acc _
    simp only [List.map_nil, List.flatten_nil, List.nil_append, List.append_nil]
    rw [extractLoop]
  | cons l ls ih =>
    intro acc hlab
    obtain ⟨hne2, hutf⟩ := hlab l (by simp)
    obtain ⟨b, l2, rfl⟩ : ∃ b l2, l = b :: l2 := by
      cases l with
      | nil => exact absurd rfl hne2
      | cons b l2 => exact ⟨b, l2, rfl⟩
    simp only [List.map_cons, List.flatten_cons, List.length_cons, List.cons_append,
      List.append_assoc]
    have htake : (b :: (l2 ++ ((ls.map fun l => l.length :: l).flatten ++ 0 :: tail))).take
        (l2.length + 1) = b :: l2 := by
      rw [List.take_succ_cons, List.take_left]
    have hdrop : (b :: (l2 ++ ((ls.map fun l => l.length :: l).flatten ++ 0 :: tail))).drop
        (l2.length + 1) = (ls.map fun l => l.length :: l).flatten ++ 0 :: tail := by
      rw [List.drop_succ_cons, List.drop_left]
    have hle : l2.length + 1
        ≤ (b :: (l2 ++ ((ls.map fun l => l.length :: l).flatten ++ 0 :: tail))).length := by
      simp <;> omega
    rw [extractLoop, if_pos hle, htake, if_pos hutf, hdrop,
      ih ((b :: l2) :: acc) (fun l hl => hlab l (by simp [hl]))]
    all_goals simp

theorem intercalate_cons_ne_nil (x : List Nat) (ls2 : List (List Nat)) (hx : x ≠ []) :
    List.intercalate [46] (x :: ls2) ≠ [] := by
  cases ls2 with
  | nil => simpa [List.intercalate, List.intersperse] using hx
  | cons y ls3 => simp [List.intercalate, List.intersperse]

theorem extract_of_parse (data : List Nat) (q : DnsQuery) (h : DnsQuery.parse data = some q) :
    ∃ w, extract_domain data = some w ∧ lowerBytes w = q.domain ∧ w ≠ [] := by
  obtain ⟨h13, ls, t1, t2, c1, c2, tl, hpl, hls, hq⟩ := parse_inversion data q h
  obtain ⟨ls2, hacc, hprops, hrecon⟩ := parseLoop_reconstruct _ _ _ _ hpl (by simp)
  simp only [List.reverse_nil, List.nil_append] at hacc
  subst hacc
  refine ⟨List.intercalate [46] ls, ?_, ?_, ?_⟩
  · rw [extract_domain.eq_def, if_neg (by omega), hrecon, extractLoop_encode ls _ [] hprops]
    simp only [List.reverse_nil, List.nil_append]
    rw [if_neg hls]
  · rw [hq]
  · obtain ⟨x, ls3, rfl⟩ : ∃ x ls3, ls = x :: ls3 := by
      cases ls with
      | nil => exact absurd rfl hls
      | cons x ls3 => exact ⟨x, ls3, rfl⟩
    exact intercalate_cons_ne_nil x ls3 (hprops x (by simp)).1

/-- C3: whenever the wire-format domain of a parsed query is blocked,
`process_query` answers `Blocked` carrying `create_blocked_response`, whose
bytes are: the query's two id bytes, flags `0x8180`, QDCOUNT 1, ANCOUNT 1,
NSCOUNT 0, ARCOUNT 0, the question section copied verbatim from the query
(qname labels, zero terminator, qtype, qclass), and exactly one answer RR
made of the compression pointer `0xC0 0x0C`, type 1 (A), class 1 (IN),
TTL 300 (`0x012C`), RDLENGTH 4 and RDATA `00 00 00 00`. -/
theorem blocked_response_layout (bl : List (List Nat)) (c : DnsCache) (now : Nat)
    (data : List Nat) (q : DnsQuery) (w : List Nat)
    (hparse : DnsQuery.parse data = some q)
    (hext : extract_domain data = some w)
    (hblk : is_blocked bl w = true) :
    process_query bl c now data = (.Blocked (create_blocked_response data) q.domain, c)
    ∧ ∃ (ls : List (List Nat)) (t1 t2 c1 c2 : Nat) (r : List Nat),
        data.drop 12 = (ls.map fun x => x.length :: x).flatten ++ 0 :: t1 :: t2 :: c1 :: c2 :: r
        ∧ q.qtype = be16 t1 t2 ∧ q.qclass = be16 c1 c2
        ∧ create_blocked_response data
            = data.take 2
              ++ [0x81, 0x80, 0x00, 0x01, 0x00, 0x01, 0x00, 0x00, 0x00, 0x00]
              ++ ((ls.map fun x => x.length :: x).flatten ++ [0, t1, t2, c1, c2])
              ++ [0xC0, 0x0C, 0x00, 0x01, 0x00, 0x01, 0x00, 0x00, 0x01, 0x2C, 0x00, 0x04,
                  0x00, 0x00, 0x00, 0x00] := by
  have hfq : filter_query bl data = some (create_blocked_response data) := by
    simp [filter_query, hext, hblk]
  constructor
  · rw [process_query.eq_def, hparse, hfq]
  · obtain ⟨h13, ls, t1, t2, c1, c2, tl, hpl, hls, hq⟩ := parse_inversion data q hparse
    obtain ⟨ls2, hacc, hprops, hrecon⟩ := parseLoop_reconstruct _ _ _ _ hpl (by simp)
    simp only [List.reverse_nil, List.nil_append] at hacc
    subst hacc
    refine ⟨ls, t1, t2, c1, c2, tl, hrecon, by rw [hq], by rw [hq], ?_⟩
    obtain ⟨pre, hprelen, hdataeq⟩ : ∃ pre, pre.length = 12
        ∧ data = pre ++ ((ls.map fun x => x.length :: x).flatten
            ++ 0 :: t1 :: t2 :: c1 :: c2 :: tl) := by
      refine ⟨data.take 12, ?_, ?_⟩
      · rw [List.length_take]
        omega
      · rw [← hrecon, List.take_append_drop]
    subst hdataeq
    rw [create_blocked_response_eq pre ls t1 t2 c1 c2 tl hprelen
      (fun x hx => (hprops x hx).1)]
    rw [take_two_append _ _ (by omega)]

theorem blocked_response_witness :
    process_query [[97]] DnsCache.new 0
        [0xAB, 0xCD, 0, 0, 0, 1, 0, 0, 0, 0, 0, 0, 1, 97, 0, 0, 1, 0, 1]
      = (.Blocked
          (create_blocked_response
            [0xAB, 0xCD, 0, 0, 0, 1, 0, 0, 0, 0, 0, 0, 1, 97, 0, 0, 1, 0, 1])
          [97],
         DnsCache.new) := by
  have h := (blocked_response_layout [[97]] DnsCache.new 0
      [0xAB, 0xCD, 0, 0, 0, 1, 0, 0, 0, 0, 0, 0, 1, 97, 0, 0, 1, 0, 1]
      ⟨43981, [97], 1, 1⟩ [97]
      (by simp [DnsQuery.parse, parseLoop, be16, lowerBytes, lowerByte, List.intercalate,
        show utf8Valid [97] = true from by simp [utf8Valid, utf8Step]])
      (by simp [extract_domain, extractLoop, List.intercalate,
        show utf8Valid [97] = true from by simp [utf8Valid, utf8Step]])
      (by simp [is_blocked])).1
  simpa using h

theorem rawLoop_acc_mem_aux (n : Nat) :
    ∀ (l : List Nat) (acc ls : List (List Nat)) (rest : List Nat), l.length < n →
      rawLoop l acc = some (ls, rest) → ∀ a ∈ acc, a ∈ ls := by
  induction n with
  | zero => exact fun l _ _ _ h => absurd h (Nat.not_lt_zero _)
  | succ n ih =>
    intro l acc ls rest hlen h a ha
    match l with
    | [] =>
      rw [rawLoop] at h
      cases h
      simpa using ha
    | 0 :: tail =>
      rw [rawLoop] at h
      cases h
      simpa using ha
    | (m + 1) :: tail =>
      have hstep : rawLoop ((m + 1) :: tail) acc
          = (if m + 1 ≤ tail.length then
              rawLoop (tail.drop (m + 1)) (tail.take (m + 1) :: acc)
            else none) := by
        rw [rawLoop]
        simp
      rw [hstep] at h
      by_cases h1 : m + 1 ≤ tail.length
      · rw [if_pos h1] at h
        have htl : (tail.drop (m + 1)).length < n := by
          simp only [List.length_cons] at hlen
          simp only [List.length_drop]
          omega
        exact ih _ _ _ _ htl h a (by simp [ha])
      · rw [if_neg h1] at h
        cases h

theorem parseLoop_eq_rawLoop_aux (n : Nat) :
    ∀ (l : List Nat) (acc : List (List Nat)), l.length < n →
      (∀ a ∈ acc, utf8Valid a = true) →
      parseLoop l acc
        = (match rawLoop l acc with
           | none => none
           | some (ls, rest) =>
             if ∀ lab ∈ ls, utf8Valid lab = true then some (ls, rest) else none) := by
  induction n with
  | zero => exact fun l _ h => absurd h (Nat.not_lt_zero _)
  | succ n ih =>
    intro l acc hlen hacc
    have hall : ∀ lab ∈ acc.reverse, utf8Valid lab = true :=
      fun lab hlab => hacc lab (by simpa using hlab)
    match l with
    | [] =>
      rw [parseLoop, rawLoop]
      simp only []
      rw [if_pos hall]
    | 0 :: tail =>
      rw [parseLoop, rawLoop]
      simp only []
      rw [if_pos hall]
    | (m + 1) :: tail =>
      have hstepP : parseLoop ((m + 1) :: tail) acc
          = (if m + 1 ≤ tail.length then
              (if utf8Valid (tail.take (m + 1)) then
                parseLoop (tail.drop (m + 1)) (tail.take (m + 1) :: acc)
              else none)
            else none) := by
        rw [parseLoop]
        simp
      have hstepR : rawLoop ((m + 1) :: tail) acc
          = (if m + 1 ≤ tail.length then
              rawLoop (tail.drop (m + 1)) (tail.take (m + 1) :: acc)
            else none) := by
        rw [rawLoop]
        simp
      rw [hstepP, hstepR]
      by_cases h1 : m + 1 ≤ tail.length
      · rw [if_pos h1, if_pos h1]
        have htl : (tail.drop (m + 1)).length < n := by
          simp only [List.length_cons] at hlen
          simp only [List.length_drop]
          omega
        by_cases h2 : utf8Valid (tail.take (m + 1)) = true
        · rw [if_pos h2]
          rw [ih _ _ htl ?_]
          intro a ha
          rcases List.mem_cons.mp ha with rfl | ha2
          · exact h2
          · exact hacc a ha2
        · rw [if_neg h2]
          match hraw : rawLoop (tail.drop (m + 1)) (tail.take (m + 1) :: acc) with
          | none => rfl
          | some (ls, rest) =>
            have hmem := rawLoop_acc_mem_aux ((tail.drop (m + 1)).length + 1) _ _ _ _
              (Nat.lt_succ_self _) hraw (tail.take (m + 1)) (by simp)
            have hnall : ¬ ∀ lab ∈ ls, utf8Valid lab = true :=
              fun hall => h2 (hall _ hmem)
            simp [hnall]
      · rw [if_neg h1, if_neg h1]

theorem parse_none_characterization (data : List Nat) :
    DnsQuery.parse data = none ↔ (specInvalidConds data ∨ hasBadUtf8Label data) := by
  by_cases h13 : data.length < 13
  · rw [DnsQuery.parse.eq_def, if_pos h13]
    simp [specInvalidConds, h13]
  rw [DnsQuery.parse.eq_def, if_neg h13]
  rw [parseLoop_eq_rawLoop_aux ((data.drop 12).length + 1) _ [] (Nat.lt_succ_self _) (by simp)]
  unfold specInvalidConds hasBadUtf8Label
  match hraw : rawLoop (data.drop 12) [] with
  | none => simp
  | some (ls, rest) =>
    simp only []
    by_cases hgood : ∀ lab ∈ ls, utf8Valid lab = true
    · have hnobad : ¬ ∃ lab ∈ ls, utf8Valid lab = false := by
        rintro ⟨lab, hlab, hbad⟩
        rw [hgood lab hlab] at hbad
        cases hbad
      rw [if_pos hgood]
      by_cases hls : ls = []
      · simp [h13, hls, hnobad]
      · match rest with
        | [] => simp [h13, hls, hnobad]
        | [a] => simp [h13, hls, hnobad]
        | [a, b] => simp [h13, hls, hnobad]
        | [a, b, c] => simp [h13, hls, hnobad]
        | a :: b :: c :: d :: tl => simp [h13, hls, hnobad] <;> omega
    · rw [if_neg hgood]
      have hbad : ∃ lab ∈ ls, utf8Valid lab = false := by
        push_neg at hgood
        obtain ⟨lab, hlab, hne⟩ := hgood
        exact ⟨lab, hlab, by simpa using hne⟩
      simp [hbad]

/-- C1, as the code has it.  `process_query` answers `Invalid` exactly when
`DnsQuery::parse` fails, which happens on the claim's four conditions OR on a
label that is not valid UTF-8; on a parsed query the blocklist is probed with
the domain exactly as written in the packet (the `filter_query` of
`filter/mod.rs` re-extracts it without lowercasing), producing `Blocked` with
the sinkhole response; otherwise a cache entry under the lowercased
(qtype, qname) that is unexpired and at least two bytes long yields `Cached`
with the id-rewritten copy; otherwise `Forward` — in that order. -/
theorem process_query_characterization (bl : List (List Nat)) (c : DnsCache) (now : Nat)
    (data : List Nat) :
    ((process_query bl c now data).1 = QueryAction.Invalid
      ↔ (specInvalidConds data ∨ hasBadUtf8Label data))
    ∧ (∀ q, DnsQuery.parse data = some q →
        ∃ w, extract_domain data = some w ∧ lowerBytes w = q.domain
          ∧ (is_blocked bl w = true →
              process_query bl c now data
                = (.Blocked (create_blocked_response data) q.domain, c))
          ∧ (is_blocked bl w = false →
              (∀ e, cacheFind c (q.qtype, q.domain) = some e →
                 (now < e.expires_at → 2 ≤ e.response.length →
                    process_query bl c now data
                      = (.Cached (q.id / 256 % 256 :: q.id % 256 :: e.response.drop 2)
                          q.domain, c))
                 ∧ ((e.expires_at ≤ now ∨ e.response.length < 2) →
                     (process_query bl c now data).1 = .Forward q.domain))
              ∧ (cacheFind c (q.qtype, q.domain) = none →
                  (process_query bl c now data).1 = .Forward q.domain))) := by
  constructor
  · rw [← parse_none_characterization]
    match hp : DnsQuery.parse data with
    | none => simp [process_query, hp]
    | some q =>
      simp only [process_query, hp]
      match hf : filter_query bl data with
      | some resp => simp
      | none =>
        match hg : c.get now q with
        | (some resp, c2) => simp [hg]
        | (none, c2) => simp [hg]
  · intro q hp
    obtain ⟨w, hw, hlow, _⟩ := extract_of_parse data q hp
    refine ⟨w, hw, hlow, ?_, ?_⟩
    · intro hblk
      have hfq : filter_query bl data = some (create_blocked_response data) := by
        simp [filter_query, hw, hblk]
      rw [process_query.eq_def, hp, hfq]
    · intro hblk
      have hfq : filter_query bl data = none := by
        simp [filter_query, hw, hblk]
      constructor
      · intro e he
        constructor
        · intro hfresh hlen
          have hget : c.get now q
              = (some (q.id / 256 % 256 :: q.id % 256 :: e.response.drop 2), c) := by
            simp [DnsCache.get, he, hfresh, DnsQuery.response_from_cache, Nat.not_lt.mpr hlen]
          simp only [process_query, hp, hfq, hget]
        · intro hcase
          rcases hcase with hexp | hshort
          · have hget : c.get now q
                = (none, { c with
                    entries := c.entries.filter (fun kv => ¬ kv.1 = (q.qtype, q.domain)) }) := by
              simp [DnsCache.get, he, Nat.not_lt.mpr hexp]
            simp only [process_query, hp, hfq, hget]
          · by_cases hfresh : now < e.expires_at
            · have hget : c.get now q = (none, c) := by
                simp [DnsCache.get, he, hfresh, DnsQuery.response_from_cache, hshort]
              simp only [process_query, hp, hfq, hget]
            · have hget : c.get now q
                  = (none, { c with
                      entries := c.entries.filter (fun kv => ¬ kv.1 = (q.qtype, q.domain)) }) := by
                simp [DnsCache.get, he, hfresh]
              simp only [process_query, hp, hfq, hget]
      · intro hnone
        have hget : c.get now q = (none, c) := by
          simp [DnsCache.get, hnone]
        simp only [process_query, hp, hfq, hget]

/-- C1's claim is false on two counts.  First, the 19-byte buffer whose only
label is the single byte `0xFF` (not valid UTF-8) is answered `Invalid`
although none of the four listed parse-failure conditions holds.  Second, a
query spelling its domain `AB` in upper case parses to the lowercase domain
`ab`; with `ab` on the blocklist the claim demands `Blocked`, but the filter
probes the domain as written in the packet and the query is forwarded. -/
theorem process_query_claim_counterexample :
    ((process_query [] DnsCache.new 0
        [0, 0, 0, 0, 0, 1, 0, 0, 0, 0, 0, 0, 1, 0xFF, 0, 0, 1, 0, 1]).1
      = QueryAction.Invalid
     ∧ ¬ specInvalidConds [0, 0, 0, 0, 0, 1, 0, 0, 0, 0, 0, 0, 1, 0xFF, 0, 0, 1, 0, 1])
    ∧ (DnsQuery.parse [0, 0, 0, 0, 0, 1, 0, 0, 0, 0, 0, 0, 2, 65, 66, 0, 0, 1, 0, 1]
        = some ⟨0, [97, 98], 1, 1⟩
       ∧ (process_query [[97, 98]] DnsCache.new 0
            [0, 0, 0, 0, 0, 1, 0, 0, 0, 0, 0, 0, 2, 65, 66, 0, 0, 1, 0, 1]).1
          = .Forward [97, 98]) := by
  refine ⟨⟨?_, ?_⟩, ?_, ?_⟩
  · simp [process_query, DnsQuery.parse, parseLoop,
      show utf8Valid [0xFF] = false from by simp [utf8Valid, utf8Step]]
  · simp [specInvalidConds, rawLoop]
  · simp [DnsQuery.parse, parseLoop, be16, lowerBytes, lowerByte, List.intercalate,
      show utf8Valid [65, 66] = true from by simp [utf8Valid, utf8Step]]
  · simp [process_query, DnsQuery.parse, parseLoop, be16, lowerBytes, lowerByte,
      List.intercalate, filter_query, extract_domain, extractLoop, is_blocked, afterDot,
      DnsCache.get, cacheFind, DnsCache.new,
      show utf8Valid [65, 66] = true from by simp [utf8Valid, utf8Step]]

theorem process_query_witness :
    (process_query [] DnsCache.new 0
        [0, 7, 0, 0, 0, 1, 0, 0, 0, 0, 0, 0, 1, 97, 0, 0, 1, 0, 1]).1
      = QueryAction.Forward [97] := by
  have h := (process_query_characterization [] DnsCache.new 0
      [0, 7, 0, 0, 0, 1, 0, 0, 0, 0, 0, 0, 1, 97, 0, 0, 1, 0, 1]).2
    ⟨7, [97], 1, 1⟩
    (by simp [DnsQuery.parse, parseLoop, be16, lowerBytes, lowerByte, List.intercalate,
      show utf8Valid [97] = true from by simp [utf8Valid, utf8Step]])
  obtain ⟨w, hw, hlow, _, hnb⟩ := h
  have hex : extract_domain [0, 7, 0, 0, 0, 1, 0, 0, 0, 0, 0, 0, 1, 97, 0, 0, 1, 0, 1]
      = some [97] := by
    simp [extract_domain, extractLoop, List.intercalate,
      show utf8Valid [97] = true from by simp [utf8Valid, utf8Step]]
  rw [hex] at hw
  have hwval : w = [97] := (Option.some.injEq _ _).mp hw.symm
  subst hwval
  exact (hnb (by simp [is_blocked, afterDot])).2 rfl

/-- C2, amended: the round trip through `process_response` holds provided the
query's wire-format domain is not blocklisted (otherwise step 1 of the
resolver answers `Blocked` before the cache is consulted).  Strictly within
`clamp(min-TTL, 60, 86400)` seconds of the insertion, a query for the same
(domain, qtype) is answered `Cached` with the response bytes of R, bytes 0-1
replaced by the query's id. -/
theorem cached_after_response (bl : List (List Nat)) (c : DnsCache) (now0 now1 : Nat)
    (R Q : List Nat) (qR qQ : DnsQuery) (wQ : List Nat)
    (hmin : c.min_ttl = 60) (hmax : c.max_ttl = 86400)
    (hR : DnsQuery.parse R = some qR)
    (hQ : DnsQuery.parse Q = some qQ)
    (hdom : qQ.domain = qR.domain) (hqt : qQ.qtype = qR.qtype)
    (hw : extract_domain Q = some wQ) (hnb : is_blocked bl wQ = false)
    (hwithin : now1 < now0 + min (max (parse_min_ttl R 60) 60) 86400) :
    process_query bl (process_response c now0 R) now1 Q
      = (.Cached (qQ.id / 256 % 256 :: qQ.id % 256 :: R.drop 2) qQ.domain,
         process_response c now0 R) := by
  have hput : process_response c now0 R = c.put now0 qR R := by
    simp [process_response, hR]
  have hfq : filter_query bl Q = none := by
    simp [filter_query, hw, hnb]
  have hfind : cacheFind (c.put now0 qR R) (qQ.qtype, qQ.domain)
      = some ⟨R, now0 + min (max (parse_min_ttl R c.min_ttl) c.min_ttl) c.max_ttl⟩ := by
    rw [hdom, hqt]
    exact cacheFind_cons _ _ _ _ _
  have hlen : 2 ≤ R.length := by
    have h13 := (parse_inversion R qR hR).1
    omega
  have hfresh : now1 < now0 + min (max (parse_min_ttl R c.min_ttl) c.min_ttl) c.max_ttl := by
    rw [hmin, hmax]
    exact hwithin
  have hget : (c.put now0 qR R).get now1 qQ
      = (some (qQ.id / 256 % 256 :: qQ.id % 256 :: R.drop 2), c.put now0 qR R) := by
    simp [DnsCache.get, hfind, hfresh, DnsQuery.response_from_cache, Nat.not_lt.mpr hlen]
  rw [hput]
  simp only [process_query, hQ, hfq, hget]

/-- C2's claim as stated fails when the domain is blocklisted: the premises
all hold (R parses and is cached, Q matches (D, T), the query arrives within
the clamped TTL) yet `process_query` answers `Blocked`, not `Cached`. -/
theorem cached_after_response_counterexample :
    DnsQuery.parse [0, 1, 0, 0, 0, 0, 0, 0, 0, 0, 0, 0, 1, 97, 0, 0, 1, 0, 1]
      = some ⟨1, [97], 1, 1⟩
    ∧ DnsQuery.parse [0xAA, 0xBB, 0, 0, 0, 0, 0, 0, 0, 0, 0, 0, 1, 97, 0, 0, 1, 0, 1]
      = some ⟨43707, [97], 1, 1⟩
    ∧ (0 : Nat) < 0 + min (max
        (parse_min_ttl [0, 1, 0, 0, 0, 0, 0, 0, 0, 0, 0, 0, 1, 97, 0, 0, 1, 0, 1] 60) 60) 86400
    ∧ (process_query [[97]]
        (process_response DnsCache.new 0 [0, 1, 0, 0, 0, 0, 0, 0, 0, 0, 0, 0, 1, 97, 0, 0, 1, 0, 1])
        0 [0xAA, 0xBB, 0, 0, 0, 0, 0, 0, 0, 0, 0, 0, 1, 97, 0, 0, 1, 0, 1]).1
      = .Blocked
          (create_blocked_response [0xAA, 0xBB, 0, 0, 0, 0, 0, 0, 0, 0, 0, 0, 1, 97, 0, 0, 1, 0, 1])
          [97] := by
  refine ⟨?_, ?_, ?_, ?_⟩
  · simp [DnsQuery.parse, parseLoop, be16, lowerBytes, lowerByte, List.intercalate,
      show utf8Valid [97] = true from by simp [utf8Valid, utf8Step]]
  · simp [DnsQuery.parse, parseLoop, be16, lowerBytes, lowerByte, List.intercalate,
      show utf8Valid [97] = true from by simp [utf8Valid, utf8Step]]
  · simp [parse_min_ttl, be16]
  · simp [process_query, DnsQuery.parse, parseLoop, be16, lowerBytes, lowerByte,
      List.intercalate, filter_query, extract_domain, extractLoop, is_blocked, afterDot,
      show utf8Valid [97] = true from by simp [utf8Valid, utf8Step]]

theorem cached_after_response_witness :
    process_query []
        (process_response DnsCache.new 0 [0, 1, 0, 0, 0, 0, 0, 0, 0, 0, 0, 0, 1, 97, 0, 0, 1, 0, 1])
        5 [0xAA, 0xBB, 0, 0, 0, 0, 0, 0, 0, 0, 0, 0, 1, 97, 0, 0, 1, 0, 1]
      = (.Cached ([0xAA, 0xBB] ++ [0, 0, 0, 0, 0, 0, 0, 0, 0, 0, 1, 97, 0, 0, 1, 0, 1]) [97],
         process_response DnsCache.new 0 [0, 1, 0, 0, 0, 0, 0, 0, 0, 0, 0, 0, 1, 97, 0, 0, 1, 0, 1]) := by
  have h := cached_after_response [] DnsCache.new 0 5
    [0, 1, 0, 0, 0, 0, 0, 0, 0, 0, 0, 0, 1, 97, 0, 0, 1, 0, 1]
    [0xAA, 0xBB, 0, 0, 0, 0, 0, 0, 0, 0, 0, 0, 1, 97, 0, 0, 1, 0, 1]
    ⟨1, [97], 1, 1⟩ ⟨43707, [97], 1, 1⟩ [97] rfl rfl
    (by simp [DnsQuery.parse, parseLoop, be16, lowerBytes, lowerByte, List.intercalate,
      show utf8Valid [97] = true from by simp [utf8Valid, utf8Step]])
    (by simp [DnsQuery.parse, parseLoop, be16, lowerBytes, lowerByte, List.intercalate,
      show utf8Valid [97] = true from by simp [utf8Valid, utf8Step]])
    rfl rfl
    (by simp [extract_domain, extractLoop, List.intercalate,
      show utf8Valid [97] = true from by simp [utf8Valid, utf8Step]])
    (by simp [is_blocked, afterDot])
    (by simp [parse_min_ttl, be16])
  simpa using h

theorem pendingFind_filter_none (p : List (Nat × PendingQuery)) (f : Nat × PendingQuery → Bool)
    (t : Nat) (h : pendingFind p t = none) : pendingFind (p.filter f) t = none := by
  have h1 : p.find? (fun kv => kv.1 = t) = none := by
    rcases hf : p.find? (fun kv => kv.1 = t) with _ | v
    · exact hf
    · rw [pendingFind, hf] at h
      cases h
  have hall := List.find?_eq_none.mp h1
  have h2 : (p.filter f).find? (fun kv => kv.1 = t) = none :=
    List.find?_eq_none.mpr fun x hx => hall x (List.mem_of_mem_filter hx)
  rw [pendingFind, h2]
  rfl

/-- C9: pending-table life cycle of the UDP loop.  (a) The first upstream
datagram whose transaction id is pending removes the entry and sends exactly
one datagram, to the recorded client, after which the id is no longer
pending; (b) an upstream datagram whose id is not pending is discarded with
no output and no state change; (c) a `Forward` decision inserts the pending
entry under the query's id, overwriting any previous entry with that id
(last writer wins); (d) over any run consisting solely of upstream
datagrams, no datagram carrying an id that is absent from the pending table
at the start is ever answered to any client — late or duplicate replies
never produce a second send for that id. -/
theorem udp_pending_semantics :
    (∀ (bl : List (List Nat)) (st : UdpState) (data : List Nat) (now : Nat)
       (pq : PendingQuery), 12 ≤ data.length →
      pendingFind st.pending (be16 (data.getD 0 0) (data.getD 1 0)) = some pq →
      udpStep bl st (.upstreamMsg data now)
        = (⟨st.pending.filter (fun kv => ¬ kv.1 = be16 (data.getD 0 0) (data.getD 1 0)),
            process_response st.cache now data⟩,
           [.sendClient pq.client_addr data])
      ∧ pendingFind
          (st.pending.filter (fun kv => ¬ kv.1 = be16 (data.getD 0 0) (data.getD 1 0)))
          (be16 (data.getD 0 0) (data.getD 1 0)) = none)
    ∧ (∀ (bl : List (List Nat)) (st : UdpState) (data : List Nat) (now : Nat),
        pendingFind st.pending (be16 (data.getD 0 0) (data.getD 1 0)) = none →
        udpStep bl st (.upstreamMsg data now) = (st, []))
    ∧ (∀ (bl : List (List Nat)) (st : UdpState) (data : List Nat) (src now : Nat)
         (d : List Nat) (c2 : DnsCache), 12 ≤ data.length →
        process_query bl st.cache now data = (.Forward d, c2) →
        udpStep bl st (.clientMsg data src now)
          = (⟨(be16 (data.getD 0 0) (data.getD 1 0), ⟨src, d, now, now⟩)
                :: st.pending.filter (fun kv => ¬ kv.1 = be16 (data.getD 0 0) (data.getD 1 0)),
              c2⟩,
             [.sendUpstreams data])
        ∧ pendingFind
            ((be16 (data.getD 0 0) (data.getD 1 0), ⟨src, d, now, now⟩)
              :: st.pending.filter (fun kv => ¬ kv.1 = be16 (data.getD 0 0) (data.getD 1 0)))
            (be16 (data.getD 0 0) (data.getD 1 0)) = some ⟨src, d, now, now⟩)
    ∧ (∀ (bl : List (List Nat)) (st : UdpState) (evts : List UdpEvent) (t : Nat),
        (∀ e ∈ evts, ∃ d n, e = UdpEvent.upstreamMsg d n) →
        pendingFind st.pending t = none →
        ∀ out ∈ (udpRun bl st evts).2, ∀ a d2, out = .sendClient a d2 →
          be16 (d2.getD 0 0) (d2.getD 1 0) ≠ t) := by
  have hstepA : ∀ (bl : List (List Nat)) (st : UdpState) (data : List Nat) (now : Nat)
      (pq : PendingQuery), 12 ≤ data.length →
      pendingFind st.pending (be16 (data.getD 0 0) (data.getD 1 0)) = some pq →
      udpStep bl st (.upstreamMsg data now)
        = (⟨st.pending.filter (fun kv => ¬ kv.1 = be16 (data.getD 0 0) (data.getD 1 0)),
            process_response st.cache now data⟩,
           [.sendClient pq.client_addr data]) := by
    intro bl st data now pq hlen hfind
    simp only [udpStep, Nat.not_lt.mpr hlen, if_false, hfind]
  have hstepB : ∀ (bl : List (List Nat)) (st : UdpState) (data : List Nat) (now : Nat),
      pendingFind st.pending (be16 (data.getD 0 0) (data.getD 1 0)) = none →
      udpStep bl st (.upstreamMsg data now) = (st, []) := by
    intro bl st data now hfind
    by_cases hlen : data.length < 12
    · simp [udpStep, hlen]
    · simp only [udpStep, if_neg hlen, hfind]
  refine ⟨fun bl st data now pq hlen hfind => ⟨hstepA bl st data now pq hlen hfind, ?_⟩,
    hstepB, ?_, ?_⟩
  · show ((st.pending.filter fun kv => ¬ kv.1 = be16 (data.getD 0 0) (data.getD 1 0)).find?
        (fun kv => kv.1 = be16 (data.getD 0 0) (data.getD 1 0))).map (·.2) = none
    rw [assoc_find_filter_self]
    rfl
  · intro bl st data src now d c2 hlen hpq
    constructor
    · simp only [udpStep, Nat.not_lt.mpr hlen, if_false, hpq]
    · simp only [pendingFind, List.find?]
      simp
  · intro bl st evts t hup hnone out hout a d2 heq hid
    subst heq
    induction evts generalizing st with
    | nil => simp [udpRun] at hout
    | cons e rest ih =>
      obtain ⟨d3, n3, rfl⟩ := hup e (by simp)
      rw [udpRun] at hout
      by_cases hlen : d3.length < 12
      · simp only [udpStep, if_pos hlen] at hout
        simp only [List.nil_append] at hout
        exact ih st (fun e2 he2 => hup e2 (by simp [he2])) hnone hout
      · rcases hfind : pendingFind st.pending (be16 (d3.getD 0 0) (d3.getD 1 0)) with _ | pq
        · rw [hstepB bl st d3 n3 hfind] at hout
          simp only [List.nil_append] at hout
          exact ih st (fun e2 he2 => hup e2 (by simp [he2])) hnone hout
        · rw [hstepA bl st d3 n3 pq (Nat.not_lt.mp hlen) hfind] at hout
          simp only [List.cons_append, List.nil_append, List.mem_cons] at hout
          rcases hout with hsame | hout2
          · have heq2 : d2 = d3 := by
              cases hsame
              rfl
            rw [heq2] at hid
            rw [hid] at hfind
            rw [hnone] at hfind
            cases hfind
          · exact ih ⟨st.pending.filter
                (fun kv => ¬ kv.1 = be16 (d3.getD 0 0) (d3.getD 1 0)),
                process_response st.cache n3 d3⟩
              (fun e2 he2 => hup e2 (by simp [he2]))
              (pendingFind_filter_none _ _ _ hnone) hout2

theorem udp_pending_witness :
    udpStep [] ⟨[(5, ⟨9, [97], 0, 0⟩)], DnsCache.new⟩
        (.upstreamMsg [0, 5, 0, 0, 0, 0, 0, 0, 0, 0, 0, 0] 3)
      = (⟨[], DnsCache.new⟩, [.sendClient 9 [0, 5, 0, 0, 0, 0, 0, 0, 0, 0, 0, 0]]) := by
  have h := (udp_pending_semantics.1 [] ⟨[(5, ⟨9, [97], 0, 0⟩)], DnsCache.new⟩
      [0, 5, 0, 0, 0, 0, 0, 0, 0, 0, 0, 0] 3 ⟨9, [97], 0, 0⟩ (by decide)
      (by simp [pendingFind, be16, List.find?])).1
  simpa [process_response, DnsQuery.parse, be16] using h
